import Mathlib

/-!
# lim.js: token operations workflow

A shallow embedding of `src/lim.js`.  The script talks to a chain through the
ethers client, to the terminal through `readline` and to the console through
`logger`.  Every such interaction is an effect; the embedding threads a `World`
(the state of the outside world plus the trace of effects performed so far)
through each function, and a thrown JavaScript error is the `.error` branch of
an `Except`.  The chain itself is a parameter (`Chain σ`): every read and every
transaction may succeed or throw, and may change the chain state.
-/

namespace Lim

/-! ## Data model -/

abbrev Address := String

/-- A thrown JavaScript value, seen through the fields the script inspects
(`e.reason`, `e.shortMessage`, `e.message`) and through `String(e)`.  A field
that is absent is the empty string: `||` treats both alike. -/
structure JsError where
  reason : String
  shortMessage : String
  message : String
  text : String
deriving DecidableEq, Repr

/-- An `ethers.Contract` bound to an address and to the runner (signer or
provider) whose address is `runner`. -/
structure Contract where
  address : Address
  runner : Address
deriving DecidableEq, Repr

/-- A wallet, as far as the script looks at it. -/
structure Wallet where
  address : Address
deriving DecidableEq, Repr

/-- State-changing contract calls (the functions of `ERC20_ABI`, `DEPOSIT_ABI`
and `WITHDRAW_ABI` that send a transaction).  Amounts are the bigints the
script passes; `parseUnits` can give a negative one. -/
inductive Call where
  | approve (ctr : Contract) (spender : Address) (amount : Int)
  | deposit (ctr : Contract) (token : Address) (value : Int)
  | withdraw (ctr : Contract) (value : Int) (addr : Address)
  | claim (ctr : Contract) (withdrawRequestIndex : Nat) (user : Address)
deriving DecidableEq, Repr

/-- Read-only calls. -/
inductive Query where
  | allowance (ctr : Contract) (owner spender : Address)
  | balanceOf (ctr : Contract) (owner : Address)
  | decimals (ctr : Contract)
  | symbol (ctr : Contract)
  | getBalance (owner : Address)
deriving DecidableEq, Repr

/-- The transaction response a contract method resolves to. -/
structure PendingTx where
  call : Call
  hash : String
deriving DecidableEq, Repr

/-- The receipt `tx.wait()` resolves to (`hash` in ethers v6,
`transactionHash` in v5). -/
structure Receipt where
  hash : String
  transactionHash : String
deriving DecidableEq, Repr

/-- The functions of `logger`, and bare `console.log`. -/
inductive Level where
  | info | warn | error | success | loading | step | critical | summary
  | banner | section | console
deriving DecidableEq, Repr

/-- One observable effect. -/
inductive Event where
  | read (q : Query)
  | submit (c : Call)
  | wait (tx : PendingTx)
  | log (lvl : Level) (msg : String)
  | ask (q : String)
  | setInterval (ms : Nat)
  | exit (code : Nat)
deriving DecidableEq, Repr

/-- The chain behind the RPC client.  Each call returns its result or throws,
and leaves the chain in a new state. -/
structure Chain (σ : Type) where
  allowance : Contract → Address → Address → σ → Except JsError Nat × σ
  balanceOf : Contract → Address → σ → Except JsError Nat × σ
  decimals : Contract → σ → Except JsError Nat × σ
  symbol : Contract → σ → Except JsError String × σ
  getBalance : Address → σ → Except JsError Nat × σ
  submit : Call → σ → Except JsError String × σ
  wait : PendingTx → σ → Except JsError Receipt × σ

/-- The outside world: chain state, effects so far, and how many answers have
been read from the terminal. -/
structure World (σ : Type) where
  chain : σ
  trace : List Event
  cursor : Nat

/-- An effectful computation that may throw. -/
abbrev Act (σ : Type) (α : Type) := World σ → Except JsError α × World σ

def World.emit {σ : Type} (w : World σ) (e : Event) : World σ :=
  { w with trace := w.trace ++ [e] }

def logger {σ : Type} (lvl : Level) (msg : String) (w : World σ) : World σ :=
  w.emit (.log lvl msg)

/-- The effects that are calls to the chain. -/
def Event.isCall : Event → Bool
  | .read _ => true
  | .submit _ => true
  | .wait _ => true
  | _ => false

/-- The transactions whose submission was attempted, in order. -/
def submitted : List Event → List Call
  | [] => []
  | .submit c :: es => c :: submitted es
  | _ :: es => submitted es

/-- The read-only calls issued, in order. -/
def reads : List Event → List Query
  | [] => []
  | .read q :: es => q :: reads es
  | _ :: es => reads es

/-- The logger lines of one level, in order. -/
def logged (lvl : Level) : List Event → List String
  | [] => []
  | .log l m :: es => if l = lvl then m :: logged lvl es else logged lvl es
  | _ :: es => logged lvl es

/-! ## Chain access -/

/-- Issue a read-only call: `await ctr.f(...)`. -/
def doRead {σ α : Type} (q : Query) (f : σ → Except JsError α × σ) : Act σ α :=
  fun w =>
    let r := f w.chain
    (r.1, { (w.emit (.read q)) with chain := r.2 })

/-- Call a state-changing contract method: `await ctr.f(...)`. -/
def doSubmit {σ : Type} (E : Chain σ) (c : Call) : Act σ PendingTx :=
  fun w =>
    let r := E.submit c w.chain
    let w1 : World σ := { (w.emit (.submit c)) with chain := r.2 }
    match r.1 with
    | .error e => (.error e, w1)
    | .ok h => (.ok ⟨c, h⟩, w1)

/-- Wait for a transaction to be mined: `await tx.wait()`. -/
def doWait {σ : Type} (E : Chain σ) (tx : PendingTx) : Act σ Receipt :=
  fun w =>
    let r := E.wait tx w.chain
    (r.1, { (w.emit (.wait tx)) with chain := r.2 })

/-- The functions of the ethers library the script uses, other than chain
access.  Their code is not part of the script. -/
structure Lib where
  isV6 : Bool
  parseUnits : String → Nat → Except JsError Int
  formatUnits : Nat → Nat → String
  formatEther : Nat → String

/-- The hash shown after a confirmation:
`isV6 ? rc.hash : tx.hash || rc.transactionHash`. -/
def txHash (L : Lib) (tx : PendingTx) (rc : Receipt) : String :=
  if L.isV6 then rc.hash else if tx.hash ≠ "" then tx.hash else rc.transactionHash

/-- Both branches of `toBigInt` give the integer the value stands for. -/
def toBigInt (n : Int) : Int := n

structure Addresses where
  DEPOSIT : Address
  WITHDRAW : Address
  WETH : Address
  EXETH : Address

def ADDR : Addresses where
  DEPOSIT := "0x0c6A085e9d17A51DEA2A7e954ACcAb1429213B75"
  WITHDRAW := "0x3Cc99498dea7a164C9d6D02C7710FF63f36A60ed"
  WETH := "0x94373a4919B3240D86eA41593D5eBa789FEF3848"
  EXETH := "0xDD1ec7e2c5408aB7199302d481a1b77FdA0267A3"

/-! ## JavaScript numbers and strings -/

/-- A JavaScript Number whose value is an integer, or `NaN`, or an infinity. -/
inductive JsNum where
  | nan
  | int (z : Int)
  | inf (negative : Bool)
deriving DecidableEq, Repr

/-- White space and line terminators, as `trim`, `parseInt` and `Number` skip them. -/
def isJsSpace (c : Char) : Bool :=
  let n := c.toNat
  (9 ≤ n && n ≤ 13) || n = 32 || n = 160 || n = 5760 || (8192 ≤ n && n ≤ 8202) ||
    n = 8232 || n = 8233 || n = 8239 || n = 8287 || n = 12288 || n = 65279

/-- A run of characters without the white space at its two ends. -/
def trimChars (cs : List Char) : List Char :=
  (((cs.dropWhile isJsSpace).reverse).dropWhile isJsSpace).reverse

/-- The method `String.prototype.trim`. -/
def jsTrim (s : String) : String := String.mk (trimChars s.data)

def isDecDigit (c : Char) : Bool := 48 ≤ c.toNat && c.toNat ≤ 57

/-- The number a run of decimal digits stands for. -/
def digitsValue (cs : List Char) : Nat :=
  cs.foldl (fun a c => 10 * a + (c.toNat - 48)) 0

def bitLengthAux : Nat → Nat → Nat
  | 0, _ => 0
  | fuel + 1, n => if n = 0 then 0 else bitLengthAux fuel (n / 2) + 1

/-- The number of binary digits of `n`. -/
def bitLength (n : Nat) : Nat := bitLengthAux n n

/-- The integer nearest to `p / q`, the even one of two that are equally near. -/
def roundHalfEven (p q : Nat) : Nat :=
  if q < 2 * (p % q) ∨ (2 * (p % q) = q ∧ p / q % 2 = 1) then p / q + 1 else p / q

/-- The Number value of a natural number: the nearest double, which keeps 53
binary digits and takes the even one of two that are equally near; `none` stands
for `Infinity`, reached when the result needs more than 1024 binary digits. -/
def toDouble (n : Nat) : Option Nat :=
  if n < 2 ^ 53 then some n
  else
    let u := 2 ^ (bitLength n - 53)
    let r := roundHalfEven n u * u
    if bitLength r ≤ 1024 then some r else none

/-- The Number value of an integer. -/
def numberOfInt (z : Int) : JsNum :=
  match toDouble z.natAbs with
  | some m => .int (if z < 0 then -(m : Int) else m)
  | none => .inf (decide (z < 0))

/-- The integer `parseInt(string, 10)` reads: skip leading white space, read a
sign, take the longest run of decimal digits; `none` when there is no digit. -/
def mathInt (cs : List Char) : Option Int :=
  let t := cs.dropWhile isJsSpace
  let neg := t.head? = some '-'
  let u := if t.head? = some '-' ∨ t.head? = some '+' then t.tail else t
  let ds := u.takeWhile isDecDigit
  if ds = [] then none
  else if neg then some (-(digitsValue ds : Int)) else some (digitsValue ds)

/-- The steps of `parseInt(string, 10)` after the string conversion: the integer
read, as a Number; `NaN` when there is none. -/
def parseIntChars (cs : List Char) : JsNum :=
  match mathInt cs with
  | none => .nan
  | some z => numberOfInt z

/-- The call `parseInt(s, 10)` on a string. -/
def parseInt (s : String) : JsNum := parseIntChars s.data

/-- A run of digits without its trailing zeros. -/
def stripZeros (cs : List Char) : List Char :=
  (cs.reverse.dropWhile (fun c => c = '0')).reverse

/-- The decimal numbers that may be written for the double `x`: for 1 to 17
significant digits, `x` cut to that many digits and the next number of that many
digits, the nearer of the two first (the one with the even last digit when they
are equally near). -/
def shortestCandidates (x : Nat) : List Nat :=
  let len := (Nat.toDigits 10 x).length
  (List.range 17).flatMap (fun j =>
    let m := len - (j + 1)
    let lower := x / 10 ^ m * 10 ^ m
    let upper := lower + 10 ^ m
    if x - lower < upper - x ∨ (x - lower = upper - x ∧ x / 10 ^ m % 2 = 0)
      then [lower, upper] else [upper, lower])

/-- The number whose digits are written for the double `x`: the one with the
fewest significant digits that still reads back as `x`.  Below `2 ^ 53` that is
`x` itself. -/
def shortestRep (x : Nat) : Nat :=
  if x < 2 ^ 53 then x
  else ((shortestCandidates x).find? (fun c => toDouble c = some x)).getD x

/-- Number-to-string conversion of an integer, `NaN` or an infinity: the digits
of the shortest decimal that reads back as the number, in plain form below
`10^21` and in exponent form from there on. -/
def numToString : JsNum → String
  | .nan => "NaN"
  | .inf negative => if negative then "-Infinity" else "Infinity"
  | .int z =>
    let sign := if z < 0 then ['-'] else []
    let y := shortestRep z.natAbs
    let ds := Nat.toDigits 10 y
    if y < 10 ^ 21 then String.mk (sign ++ ds)
    else
      let frac := (stripZeros ds).drop 1
      String.mk (sign ++ ds.take 1 ++ (if frac = [] then [] else '.' :: frac) ++
        ['e', '+'] ++ Nat.toDigits 10 (ds.length - 1))

/-- The call `Math.max(1, x)`. -/
def mathMax1 : JsNum → JsNum
  | .nan => .nan
  | .int z => .int (max 1 z)
  | .inf negative => if negative then .int 1 else .inf false

/-- The value of `x || 1` on a number: `NaN` and `0` are falsy. -/
def orOne : JsNum → JsNum
  | .nan => .int 1
  | .int z => if z = 0 then .int 1 else .int z
  | .inf negative => .inf negative

/-- The values `i` takes in `for (let i = 1; i <= times; i++)`.  With an infinite
bound the loop does not end: the counter runs up to `2 ^ 53` and stays there. -/
def loopFrom1 : JsNum → List Nat
  | .nan => []
  | .int z => List.range' 1 z.toNat
  | .inf negative => if negative then [] else List.range' 1 (2 ^ 53)

/-- The values `idx` takes in `for (let idx = 0; idx < count; idx++)`.  With an
infinite bound the loop does not end: the counter runs up to `2 ^ 53` and stays
there. -/
def loopFrom0 : JsNum → List Nat
  | .nan => []
  | .int z => List.range z.toNat
  | .inf negative => if negative then [] else List.range (2 ^ 53 + 1)

/-! ## Sequencing -/

/-- A `for` loop whose body awaits: the bodies run in order and the first throw
ends the loop. -/
def forEach {σ α : Type} (body : α → Act σ Unit) : List α → Act σ Unit
  | [], w => (.ok (), w)
  | x :: xs, w =>
    match body x w with
    | (.error e, w1) => (.error e, w1)
    | (.ok _, w1) => forEach body xs w1

/-! ## ensureAllowance -/

def ensureAllowance {σ : Type} (E : Chain σ) (L : Lib) (tokenCtr : Contract)
    (ownerAddr spender : Address) (amount : Int) : Act σ Bool :=
  fun w =>
    match doRead (.allowance tokenCtr ownerAddr spender)
        (E.allowance tokenCtr ownerAddr spender) w with
    | (.error e, w1) => (.error e, w1)
    | (.ok current, w1) =>
      if toBigInt current ≥ toBigInt amount then (.ok false, w1)
      else
        let w2 := logger .step ("Approving allowance to " ++ spender ++ " ...") w1
        match doSubmit E (.approve tokenCtr spender amount) w2 with
        | (.error e, w3) => (.error e, w3)
        | (.ok tx, w3) =>
          match doWait E tx w3 with
          | (.error e, w4) => (.error e, w4)
          | (.ok rc, w4) =>
            (.ok true, logger .success ("Approve confirmed. tx: " ++ txHash L tx rc) w4)

/-! ## The three operations -/

/-- One pass of the loop body of `doDeposit`. -/
def depositIteration {σ : Type} (E : Chain σ) (L : Lib) (wallet : Wallet)
    (amountWeth : String) (times : JsNum) (amountWei : Int) (i : Nat) : Act σ Unit :=
  fun w =>
    let weth : Contract := ⟨ADDR.WETH, wallet.address⟩
    let dep : Contract := ⟨ADDR.DEPOSIT, wallet.address⟩
    let wethDec := 18
    let w0 := logger .step ("Deposit " ++ numToString (.int i) ++ "/" ++ numToString times ++
      " for " ++ wallet.address ++ " ...") w
    match doRead (.balanceOf weth wallet.address) (E.balanceOf weth wallet.address) w0 with
    | (.error e, w1) => (.error e, w1)
    | (.ok balWeth, w1) =>
      if toBigInt balWeth < toBigInt amountWei then
        (.ok (), logger .error ("Insufficient WETH. Needed " ++ amountWeth ++ ", have " ++
          L.formatUnits balWeth wethDec ++ ". Wrap ETH to WETH") w1)
      else
        match ensureAllowance E L weth wallet.address ADDR.DEPOSIT amountWei w1 with
        | (.error e, w2) => (.error e, w2)
        | (.ok _, w2) =>
          let w3 := logger .loading ("Calling deposit(WETH, " ++ amountWeth ++ ") ...") w2
          match doSubmit E (.deposit dep ADDR.WETH amountWei) w3 with
          | (.error e, w4) => (.error e, w4)
          | (.ok txDep, w4) =>
            match doWait E txDep w4 with
            | (.error e, w5) => (.error e, w5)
            | (.ok rcDep, w5) =>
              (.ok (), logger .success ("Deposit confirmed. tx: " ++ txHash L txDep rcDep) w5)

def doDeposit {σ : Type} (E : Chain σ) (L : Lib) (wallet : Wallet) (amountWeth : String)
    (times : JsNum) : Act σ Unit :=
  fun w =>
    let wethDec := 18
    match L.parseUnits amountWeth wethDec with
    | .error e => (.error e, w)
    | .ok amountWei =>
      forEach (depositIteration E L wallet amountWeth times amountWei) (loopFrom1 times) w

/-- One pass of the loop body of `doWithdraw`. -/
def withdrawIteration {σ : Type} (E : Chain σ) (L : Lib) (wallet : Wallet)
    (amountExEth : String) (times : JsNum) (amountWei : Int) (i : Nat) : Act σ Unit :=
  fun w =>
    let ex : Contract := ⟨ADDR.EXETH, wallet.address⟩
    let wdr : Contract := ⟨ADDR.WITHDRAW, wallet.address⟩
    let w0 := logger .step ("Withdraw " ++ numToString (.int i) ++ "/" ++ numToString times ++
      " for " ++ wallet.address ++ " ...") w
    match ensureAllowance E L ex wallet.address ADDR.WITHDRAW amountWei w0 with
    | (.error e, w1) => (.error e, w1)
    | (.ok _, w1) =>
      let w2 := logger .loading ("Calling withdraw(" ++ amountExEth ++ " exETH, WETH) ...") w1
      match doSubmit E (.withdraw wdr amountWei ADDR.WETH) w2 with
      | (.error e, w3) => (.error e, w3)
      | (.ok txW, w3) =>
        match doWait E txW w3 with
        | (.error e, w4) => (.error e, w4)
        | (.ok rcW, w4) =>
          let w5 := logger .success ("Withdraw submitted. tx: " ++ txHash L txW rcW) w4
          (.ok (), logger .info "Typical unlock to claim is ~25 minutes after withdraw." w5)

def doWithdraw {σ : Type} (E : Chain σ) (L : Lib) (wallet : Wallet) (amountExEth : String)
    (times : JsNum) : Act σ Unit :=
  fun w =>
    let ex : Contract := ⟨ADDR.EXETH, wallet.address⟩
    -- `await ex.decimals().catch(() => 18)`
    let r := doRead (.decimals ex) (E.decimals ex) w
    let exDec := match r.1 with
      | .ok d => d
      | .error _ => 18
    match L.parseUnits amountExEth exDec with
    | .error e => (.error e, r.2)
    | .ok amountWei =>
      forEach (withdrawIteration E L wallet amountExEth times amountWei) (loopFrom1 times) r.2

/-- The message a `catch` block shows:
`e?.reason || e?.shortMessage || e?.message || String(e)`. -/
def errorMessage (e : JsError) : String :=
  if e.reason ≠ "" then e.reason
  else if e.shortMessage ≠ "" then e.shortMessage
  else if e.message ≠ "" then e.message
  else e.text

/-- One pass of the loop body of `doClaim`: the `try` block and its `catch`. -/
def claimIteration {σ : Type} (E : Chain σ) (L : Lib) (wallet : Wallet) (idx : Nat) :
    Act σ Unit :=
  fun w =>
    let wdr : Contract := ⟨ADDR.WITHDRAW, wallet.address⟩
    let w0 := logger .step ("Claiming index " ++ numToString (.int idx) ++ " for " ++
      wallet.address ++ " ...") w
    let handler (e : JsError) (w1 : World σ) : Except JsError Unit × World σ :=
      (.ok (), logger .warn ("Claim index " ++ numToString (.int idx) ++ " failed: " ++
        errorMessage e) w1)
    match doSubmit E (.claim wdr idx wallet.address) w0 with
    | (.error e, w1) => handler e w1
    | (.ok tx, w1) =>
      match doWait E tx w1 with
      | (.error e, w2) => handler e w2
      | (.ok rc, w2) =>
        (.ok (), logger .success ("Claimed index " ++ numToString (.int idx) ++ ". tx: " ++
          txHash L tx rc) w2)

/-- The number of claim attempts: `Math.max(1, parseInt(attempts || 1, 10))`. -/
def claimCount (attempts : JsNum) : JsNum :=
  mathMax1 (parseInt (numToString (orOne attempts)))

def doClaim {σ : Type} (E : Chain σ) (L : Lib) (wallet : Wallet) (attempts : JsNum) :
    Act σ Unit :=
  fun w =>
    let w0 := logger .info ("Proceeding to direct claims (no index scanning). " ++
      "If a request isn't ready (~25 min), the tx may revert.") w
    let count := claimCount attempts
    forEach (claimIteration E L wallet) (loopFrom0 count) w0

/-! ## The session loop -/

/-- The runner of a contract bound to the bare provider. -/
def providerRunner : Address := ""

/-- The helper `ask(q)`: print the question, read the next answer from the terminal,
trimmed. -/
def ask {σ : Type} (stdin : Nat → String) (q : String) (w : World σ) : String × World σ :=
  (jsTrim (stdin w.cursor), { (w.emit (.ask q)) with cursor := w.cursor + 1 })

def pressEnter {σ : Type} (stdin : Nat → String) (w : World σ) : World σ :=
  (ask stdin "\nPress Enter to return to the main menu..." w).2

/-- The count read from a prompt: `Math.max(1, parseInt(answer || '1', 10))`. -/
def repeatCount (answer : String) : JsNum :=
  mathMax1 (parseInt (if answer = "" then "1" else answer))

/-- The test `scheduleChoice.toUpperCase() === 'S'`: the strings whose upper case
is `S`. -/
def upperIsS (s : String) : Bool := s = "S" || s = "s" || s = "ſ"

/-- One pass of the wallet loop of `showHeaderBalances`.  Both reads of the
`Promise.all` are issued; the first of them that fails is thrown. -/
def headerIteration {σ : Type} (E : Chain σ) (L : Lib) (exSym : String) (exDec : Nat)
    (wl : Wallet) : Act σ Unit :=
  fun w =>
    let ex : Contract := ⟨ADDR.EXETH, providerRunner⟩
    let r1 := doRead (.getBalance wl.address) (E.getBalance wl.address) w
    let r2 := doRead (.balanceOf ex wl.address) (E.balanceOf ex wl.address) r1.2
    match r1.1, r2.1 with
    | .error e, _ => (.error e, r2.2)
    | .ok _, .error e => (.error e, r2.2)
    | .ok ethBal, .ok exBal =>
      let w1 := logger .info ("Wallet " ++ wl.address) r2.2
      let w2 := logger .console ("ETH (Holesky): " ++ L.formatEther ethBal) w1
      (.ok (), logger .console (exSym ++ ": " ++ L.formatUnits exBal exDec) w2)

def showHeaderBalances {σ : Type} (E : Chain σ) (L : Lib) (wallets : List Wallet) :
    Act σ Unit :=
  fun w =>
    let ex : Contract := ⟨ADDR.EXETH, providerRunner⟩
    let w0 := logger .loading "Fetching balances (ETH Holesky & exETH) ..." w
    let r1 := doRead (.decimals ex) (E.decimals ex) w0
    let exDec := match r1.1 with
      | .ok d => d
      | .error _ => 18
    let r2 := doRead (.symbol ex) (E.symbol ex) r1.2
    let exSym := match r2.1 with
      | .ok s => s
      | .error _ => "exETH"
    match forEach (headerIteration E L exSym exDec) wallets r2.2 with
    | (.error e, w1) => (.error e, w1)
    | (.ok _, w1) => (.ok (), logger .console "" w1)

/-- The wallet loop of a deposit pass: the loop of `runDepositTask`, and the same
loop in the run-once branch of the menu. -/
def depositPass {σ : Type} (E : Chain σ) (L : Lib) (wallets : List Wallet)
    (amountStr : String) (times : JsNum) : Act σ Unit :=
  forEach (fun wallet w =>
    doDeposit E L wallet amountStr times
      (logger .info ("--- Deposit for " ++ wallet.address ++ " ---") (logger .console "" w)))
    wallets

/-- A scheduled deposit run; `now` is `new Date().toLocaleString()`. -/
def runDepositTask {σ : Type} (E : Chain σ) (L : Lib) (now : String) (wallets : List Wallet)
    (amountStr : String) (times : JsNum) : Act σ Unit :=
  fun w =>
    let w0 := logger .section ("DAILY DEPOSIT RUN: " ++ now) w
    match depositPass E L wallets amountStr times w0 with
    | (.error e, w1) => (.error e, w1)
    | (.ok _, w1) =>
      (.ok (), logger .summary "Deposit run completed. Waiting 24 hours for next run..." w1)

def withdrawPass {σ : Type} (E : Chain σ) (L : Lib) (wallets : List Wallet)
    (amountStr : String) (times : JsNum) : Act σ Unit :=
  forEach (fun wallet w =>
    doWithdraw E L wallet amountStr times
      (logger .info ("--- Withdraw for " ++ wallet.address ++ " ---") (logger .console "" w)))
    wallets

def claimPass {σ : Type} (E : Chain σ) (L : Lib) (wallets : List Wallet) (attempts : JsNum) :
    Act σ Unit :=
  forEach (fun wallet w =>
    doClaim E L wallet attempts
      (logger .info ("--- Claim for " ++ wallet.address ++ " ---") (logger .console "" w)))
    wallets

/-- How one pass of the `while (true)` loop ends. -/
inductive Ctl where
  | next
  | exit (code : Nat)
  | scheduled
deriving DecidableEq, Repr

/-- The menu and the question that follows it. -/
def menuPrompt {σ : Type} (stdin : Nat → String) (w : World σ) : String × World σ :=
  let w1 := logger .section "MENU" w
  let w2 := logger .console "1. Deposit" w1
  let w3 := logger .console "2. Withdraw" w2
  let w4 := logger .console "3. Claim" w3
  let w5 := logger .console "4. Exit\n" w4
  ask stdin "Choose option (1-4): " w5

/-- The answers of the deposit branch. -/
structure DepositAnswers (σ : Type) where
  amountStr : String
  times : JsNum
  scheduleChoice : String
  world : World σ

/-- The three questions of the deposit branch. -/
def promptDeposit {σ : Type} (stdin : Nat → String) (w : World σ) : DepositAnswers σ :=
  let a1 := ask stdin "Amount per tx (in WETH), e.g., 0.01: " w
  let a2 := ask stdin "How many transactions per wallet?: " a1.2
  let a3 := ask stdin "Run once (O) or Schedule daily (S - 24 hours)? [O/S]: " a2.2
  ⟨a1.1, repeatCount a2.1, a3.1, a3.2⟩

/-- The `try` block of the menu loop, for an answer other than `4`. -/
def menuBody {σ : Type} (E : Chain σ) (L : Lib) (stdin : Nat → String) (now : String)
    (wallets : List Wallet) (choice : String) : Act σ Ctl :=
  fun w =>
    if choice = "1" then
      let a := promptDeposit stdin w
      if upperIsS a.scheduleChoice then
        let dailyIntervalMs := 24 * 60 * 60 * 1000
        let w1 := logger .summary "Daily deposit schedule started." a.world
        let w2 := logger .info ("Amount: " ++ a.amountStr ++ " WETH, Tx/Wallet: " ++
          numToString a.times ++ ".") w1
        let w3 := logger .info ("Script sekarang berjalan dalam mode terjadwal. " ++
          "Tekan CTRL+C untuk menghentikan.") w2
        match runDepositTask E L now wallets a.amountStr a.times w3 with
        | (.error e, w4) => (.error e, w4)
        | (.ok _, w4) => (.ok .scheduled, w4.emit (.setInterval dailyIntervalMs))
      else
        match depositPass E L wallets a.amountStr a.times a.world with
        | (.error e, w1) => (.error e, w1)
        | (.ok _, w1) => (.ok .next, pressEnter stdin w1)
    else if choice = "2" then
      let a1 := ask stdin "Amount per tx (in exETH), e.g., 0.001: " w
      let a2 := ask stdin "How many transactions per wallet?: " a1.2
      let times := repeatCount a2.1
      match withdrawPass E L wallets a1.1 times a2.2 with
      | (.error e, w1) => (.error e, w1)
      | (.ok _, w1) => (.ok .next, pressEnter stdin w1)
    else if choice = "3" then
      let a1 := ask stdin "How many claims to attempt per wallet?: " w
      let attempts := repeatCount a1.1
      match claimPass E L wallets attempts a1.2 with
      | (.error e, w1) => (.error e, w1)
      | (.ok _, w1) => (.ok .next, pressEnter stdin w1)
    else
      (.ok .next, pressEnter stdin (logger .error "Invalid option." w))

/-- One pass of the `while (true)` loop.  A throw of `showHeaderBalances` leaves
the loop; a throw inside the `try` block is caught, shown, and the pass ends as
any other. -/
def menuIteration {σ : Type} (E : Chain σ) (L : Lib) (stdin : Nat → String) (now : String)
    (wallets : List Wallet) : Act σ Ctl :=
  fun w =>
    match showHeaderBalances E L wallets w with
    | (.error e, w1) => (.error e, w1)
    | (.ok _, w1) =>
      let c := menuPrompt stdin w1
      if c.1 = "4" then (.ok (.exit 0), c.2.emit (.exit 0))
      else
        match menuBody E L stdin now wallets c.1 c.2 with
        | (.ok .scheduled, w2) => (.ok .scheduled, w2)
        | (.ok (.exit code), w2) => (.ok (.exit code), w2)
        | (.ok .next, w2) => (.ok .next, logger .console "" (logger .banner "" w2))
        | (.error e, w2) =>
          let w3 := pressEnter stdin (logger .error (errorMessage e) w2)
          (.ok .next, logger .console "" (logger .banner "" w3))

/-- How the session stands after a number of passes of the loop. -/
inductive Session where
  | atMenu
  | exited (code : Nat)
  | scheduled
deriving DecidableEq, Repr

/-- The `while (true)` loop, run for at most `passes` passes, with the handler
of the top-level `.catch`. -/
def mainLoop {σ : Type} (E : Chain σ) (L : Lib) (stdin : Nat → String) (now : String)
    (wallets : List Wallet) : Nat → World σ → Session × World σ
  | 0, w => (.atMenu, w)
  | passes + 1, w =>
    match menuIteration E L stdin now wallets w with
    | (.error e, w1) =>
      (.exited 1,
        (logger .critical (if e.message ≠ "" then e.message else e.text) w1).emit (.exit 1))
    | (.ok .next, w1) => mainLoop E L stdin now wallets passes w1
    | (.ok (.exit code), w1) => (.exited code, w1)
    | (.ok .scheduled, w1) => (.scheduled, w1)

/-! ## Private keys from the environment -/

/-- A Number as `Number(string)` gives it: `NaN`, an infinity, or a finite double.
Every finite double is a whole multiple of `2 ^ -1074`; `scaled` is that multiple. -/
inductive JsValue where
  | nan
  | finite (negative : Bool) (scaled : Nat)
  | infinite (negative : Bool)
deriving DecidableEq, Repr

/-- The value with the other sign. -/
def JsValue.negate : JsValue → JsValue
  | .nan => .nan
  | .finite negative scaled => .finite (!negative) scaled
  | .infinite negative => .infinite (!negative)

/-- The double nearest to a natural number. -/
def doubleOfNat (n : Nat) : JsValue :=
  match toDouble n with
  | some m => .finite false (m <<< 1074)
  | none => .infinite false

/-- The double nearest to `p / q`, for a positive `q`: the ratio in units of
`2 ^ -1074`, rounded to 53 binary digits (to a whole unit when it has fewer). -/
def doubleOfRatio (p q : Nat) : JsValue :=
  let u := 2 ^ (bitLength ((p <<< 1074) / q) - 53)
  let r := roundHalfEven (p <<< 1074) (u * q) * u
  if bitLength r ≤ 2098 then .finite false r else .infinite false

/-- The value of a character as a digit of the radix, if it is one. -/
def digitIn (radix : Nat) (c : Char) : Option Nat :=
  let v :=
    if isDecDigit c then c.toNat - 48
    else if 97 ≤ c.toNat ∧ c.toNat ≤ 102 then c.toNat - 87
    else if 65 ≤ c.toNat ∧ c.toNat ≤ 70 then c.toNat - 55
    else 16
  if v < radix then some v else none

/-- The number a nonempty run of digits of the radix stands for. -/
def radixValue (radix : Nat) (cs : List Char) : Option Nat :=
  if cs = [] then none
  else cs.foldl (fun acc c =>
    match acc, digitIn radix c with
    | some a, some d => some (radix * a + d)
    | _, _ => none) (some 0)

/-- The Number of a binary, octal or hexadecimal literal after its prefix. -/
def radixLiteral (radix : Nat) (cs : List Char) : JsValue :=
  match radixValue radix cs with
  | some n => doubleOfNat n
  | none => .nan

/-- The exponent part of a decimal literal, `0` when there is none; `none` when
the characters are not an exponent part. -/
def exponentPart (cs : List Char) : Option Int :=
  match cs with
  | [] => some 0
  | c :: t =>
    if c = 'e' ∨ c = 'E' then
      let ds := if t.head? = some '-' ∨ t.head? = some '+' then t.tail else t
      if ds ≠ [] ∧ ds.all isDecDigit then
        some (if t.head? = some '-' then -(digitsValue ds : Int) else digitsValue ds)
      else none
    else none

/-- The Number of an unsigned decimal literal: `Infinity`, or digits with an
optional point, fraction and exponent part. -/
def unsignedDecimal (cs : List Char) : JsValue :=
  if cs = "Infinity".data then .infinite false
  else
    let ip := cs.takeWhile isDecDigit
    let r1 := cs.dropWhile isDecDigit
    let fp := if r1.head? = some '.' then r1.tail.takeWhile isDecDigit else []
    let r2 := if r1.head? = some '.' then r1.tail.dropWhile isDecDigit else r1
    if ip = [] ∧ fp = [] then .nan
    else
      match exponentPart r2 with
      | none => .nan
      | some e =>
        let n := digitsValue (ip ++ fp)
        let e10 := e - fp.length
        if 0 ≤ e10 then doubleOfNat (n * 10 ^ e10.toNat)
        else doubleOfRatio n (10 ^ (-e10).toNat)

/-- The Number of a decimal literal with its optional sign. -/
def signedDecimal (cs : List Char) : JsValue :=
  if cs.head? = some '-' then (unsignedDecimal cs.tail).negate
  else if cs.head? = some '+' then unsignedDecimal cs.tail
  else unsignedDecimal cs

/-- Whether the characters start with `0` and one of two letters. -/
def hasRadixMark (cs : List Char) (a b : Char) : Bool :=
  cs.head? = some '0' && (cs.tail.head? = some a || cs.tail.head? = some b)

/-- The conversion `Number(s)` of a string: white space at the ends is dropped;
the empty string is `0`; then a hexadecimal, octal or binary literal, or a signed
decimal literal; anything else is `NaN`. -/
def jsNumber (s : String) : JsValue :=
  let cs := trimChars s.data
  if cs = [] then .finite false 0
  else if hasRadixMark cs 'x' 'X' then radixLiteral 16 (cs.drop 2)
  else if hasRadixMark cs 'o' 'O' then radixLiteral 8 (cs.drop 2)
  else if hasRadixMark cs 'b' 'B' then radixLiteral 2 (cs.drop 2)
  else signedDecimal cs

/-- The place of `x || 0` in the order of Numbers, in units of `2 ^ -1074`: `NaN`
counts as `0` and the infinities lie beyond every finite double. -/
def orZeroKey : JsValue → Int
  | .nan => 0
  | .finite negative scaled => if negative then -(scaled : Int) else scaled
  | .infinite negative =>
    if negative then -((1 <<< 2098 : Nat) : Int) else ((1 <<< 2098 : Nat) : Int)

/-- The name every private-key entry starts with. -/
def keyTag : List Char := "PRIVATE_KEY_".data

/-- The test `k.startsWith('PRIVATE_KEY_')`. -/
def hasKeyTag (k : String) : Bool := keyTag.isPrefixOf k.data

/-- The value of `k.replace('PRIVATE_KEY_', '')` for a name that starts with the tag. -/
def keySuffix (k : String) : String := String.mk (k.data.drop keyTag.length)

/-- The sort key `Number(k.replace('PRIVATE_KEY_', '')) || 0`, by its place in the
order of Numbers. -/
def suffixNumber (k : String) : Int := orZeroKey (jsNumber (keySuffix k))

/-- The value `process.env[k]`, with the empty string for a missing entry. -/
def envValue (env : List (String × String)) (k : String) : String :=
  (env.lookup k).getD ""

/-- The entry names that start with the tag, sorted by the comparator
`(a, b) => na - nb`: the difference is negative, zero or positive as `na` lies
below, at or above `nb` (the `NaN` of two equal infinities counts as zero).  The
sort of the runtime is stable, as insertion sort is. -/
def sortedKeyNames (env : List (String × String)) : List String :=
  ((env.map Prod.fst).filter hasKeyTag).insertionSort
    (fun a b => suffixNumber a ≤ suffixNumber b)

/-- A fatal end of the process: the line `logger.critical` prints and the status
given to `process.exit`. -/
structure Fatal where
  message : String
  code : Nat
deriving DecidableEq, Repr

/-- The private keys, or the fatal end of the process when there is none. -/
def loadPrivateKeysFromEnv (env : List (String × String)) : Except Fatal (List String) :=
  let keys := ((sortedKeyNames env).map (envValue env)).filter (fun v => v ≠ "")
  if keys.length = 0 then .error ⟨"No PRIVATE_KEY_* found in .env", 1⟩ else .ok keys

/-- The number an entry name carries: the value of its suffix when that is a
nonempty run of decimal digits. -/
def keyIndex (k : String) : Option Nat :=
  let ds := k.data.drop keyTag.length
  if hasKeyTag k ∧ ds ≠ [] ∧ ds.all isDecDigit then some (digitsValue ds) else none

/-! ## Unit/amount conversion -/

/-- Modelled from the spec: `toBaseUnits` is the script's `parseUnits`, which only
hands over to the ethers library; the code of the conversion is not in the
repository.  Following section 4.1, a decimal amount string (digits, then
optionally a point and digits) with at most `decimals` fractional digits becomes
its value scaled by `10 ^ decimals`; non-numeric input, negative input and longer
fractions are refused with `InvalidAmount`. -/
def toBaseUnits (decimalString : String) (decimals : Nat) : Except String Nat :=
  let cs := decimalString.data
  let whole := cs.takeWhile (fun c => c ≠ '.')
  let rest := cs.dropWhile (fun c => c ≠ '.')
  let frac := rest.tail
  if whole = [] ∨ whole.all isDecDigit = false ∨ frac.all isDecDigit = false ∨
      (rest ≠ [] ∧ frac = []) then .error "InvalidAmount"
  else if decimals < frac.length then .error "InvalidAmount"
  else .ok (digitsValue whole * 10 ^ decimals + digitsValue frac * 10 ^ (decimals - frac.length))

/-- Modelled from the spec: `toDecimalString` is the script's `formatUnits`, which
only hands over to the ethers library; the code of the conversion is not in the
repository.  Section 4.1 gives its contract, integer and precision to decimal
string; the string written here is the whole part, and for a precision above zero
a point and the fraction without trailing zeros, with at least one digit. -/
def toDecimalString (value decimals : Nat) : String :=
  let whole := Nat.toDigits 10 (value / 10 ^ decimals)
  if decimals = 0 then String.mk whole
  else
    let r := Nat.toDigits 10 (value % 10 ^ decimals)
    let frac := stripZeros (List.replicate (decimals - r.length) '0' ++ r)
    String.mk (whole ++ '.' :: (if frac = [] then ['0'] else frac))

/-- No chain call throws: every submission is accepted, every transaction is
mined, and the balance and allowance reads answer. -/
def Chain.Reliable {σ : Type} (E : Chain σ) : Prop :=
  (∀ c s, ∃ h, (E.submit c s).1 = .ok h) ∧
  (∀ tx s, ∃ rc, (E.wait tx s).1 = .ok rc) ∧
  (∀ ctr owner s, ∃ v, (E.balanceOf ctr owner s).1 = .ok v) ∧
  (∀ ctr owner spender s, ∃ v, (E.allowance ctr owner spender s).1 = .ok v)

/-! ## A small chain to run the script on -/

/-- State of the test chain: one allowance and one token balance. -/
structure Sim where
  allowance : Nat
  balance : Nat

def revertError : JsError := ⟨"execution reverted", "", "", "Error"⟩

/-- A chain on which `approve` sets the allowance, `deposit` takes the value
from the balance, and the calls in `failing` revert on submission. -/
def simChain (failing : List Call) : Chain Sim where
  allowance := fun _ _ _ s => (.ok s.allowance, s)
  balanceOf := fun _ _ s => (.ok s.balance, s)
  decimals := fun _ s => (.ok 18, s)
  symbol := fun _ s => (.ok "exETH", s)
  getBalance := fun _ s => (.ok 0, s)
  submit := fun c s =>
    if c ∈ failing then (.error revertError, s)
    else match c with
      | .approve _ _ a => (.ok "0xa", { s with allowance := a.toNat })
      | .deposit _ _ v => (.ok "0xd", { s with balance := s.balance - v.toNat })
      | .withdraw _ _ _ => (.ok "0xw", s)
      | .claim _ _ _ => (.ok "0xc", s)
  wait := fun tx s => (.ok ⟨tx.hash, tx.hash⟩, s)

/-- A library stub: amounts are written directly in base units. -/
def simLib : Lib where
  isV6 := true
  parseUnits := fun v _ =>
    match parseInt v with
    | .int z => .ok z
    | _ => .error ⟨"", "", "invalid amount", "Error"⟩
  formatUnits := fun v _ => numToString (.int v)
  formatEther := fun v => numToString (.int v)

def simWorld (allowance balance : Nat) : World Sim :=
  ⟨⟨allowance, balance⟩, [], 0⟩

def alice : Wallet := ⟨"0xA11CE"⟩

def simEnv : List (String × String) :=
  [("PATH", "/usr/bin"), ("PRIVATE_KEY_10", "0xk10"), ("PRIVATE_KEY_2", "0xk2"),
   ("PRIVATE_KEY_x", "0xkx"), ("PRIVATE_KEY_3", ""), ("PRIVATE_KEY_1", "0xk1")]

def bob : Wallet := ⟨"0xB0B"⟩

/-- Terminal answers for a run-once deposit of 10 units, twice per wallet. -/
def depositAnswers : Nat → String
  | 0 => "1"
  | 1 => "10"
  | 2 => "2"
  | 3 => "O"
  | _ => ""

/-! ## Decimal digits -/

theorem toDigitsCore_append (f n : Nat) (acc : List Char) :
    Nat.toDigitsCore 10 f n acc = Nat.toDigitsCore 10 f n [] ++ acc := by
  induction f generalizing n acc with
  | zero => simp [Nat.toDigitsCore]
  | succ f ih =>
    simp only [Nat.toDigitsCore]
    split
    · simp
    · rw [ih (n / 10) (Nat.digitChar (n % 10) :: acc), ih (n / 10) [Nat.digitChar (n % 10)]]
      simp

theorem digitChar_isDecDigit (k : Nat) (h : k < 10) : isDecDigit (Nat.digitChar k) = true := by
  interval_cases k <;> decide

theorem digitChar_value (k : Nat) (h : k < 10) : (Nat.digitChar k).toNat - 48 = k := by
  interval_cases k <;> decide

theorem toDigitsCore_ne_nil (f n : Nat) : Nat.toDigitsCore 10 (f + 1) n [] ≠ [] := by
  simp only [Nat.toDigitsCore]
  split
  · simp
  · rw [toDigitsCore_append]
    simp

theorem toDigitsCore_all_digits (f n : Nat) :
    ∀ c ∈ Nat.toDigitsCore 10 f n [], isDecDigit c = true := by
  induction f generalizing n with
  | zero => simp [Nat.toDigitsCore]
  | succ f ih =>
    simp only [Nat.toDigitsCore]
    split
    · intro c hc
      simp only [List.mem_singleton] at hc
      subst hc
      exact digitChar_isDecDigit _ (Nat.mod_lt _ (by decide))
    · rw [toDigitsCore_append]
      intro c hc
      simp only [List.mem_append, List.mem_singleton] at hc
      rcases hc with hc | hc
      · exact ih _ c hc
      · subst hc
        exact digitChar_isDecDigit _ (Nat.mod_lt _ (by decide))

theorem digitsValue_append_single (cs : List Char) (c : Char) :
    digitsValue (cs ++ [c]) = 10 * digitsValue cs + (c.toNat - 48) := by
  simp [digitsValue, List.foldl_append]

theorem digitsValue_toDigitsCore (f n : Nat) (h : n < f) :
    digitsValue (Nat.toDigitsCore 10 f n []) = n := by
  induction f generalizing n with
  | zero => omega
  | succ f ih =>
    simp only [Nat.toDigitsCore]
    split
    · rename_i h0
      have : n < 10 := by
        by_contra hc
        have : 1 ≤ n / 10 := Nat.div_pos (by omega) (by decide)
        omega
      simp [digitsValue, digitChar_value n this, Nat.mod_eq_of_lt this]
    · rename_i h0
      rw [toDigitsCore_append, digitsValue_append_single, ih (n / 10) (by omega),
        digitChar_value _ (Nat.mod_lt _ (by decide))]
      omega

theorem isDecDigit_not_space (c : Char) (h : isDecDigit c = true) : isJsSpace c = false := by
  simp only [isDecDigit, Bool.and_eq_true, decide_eq_true_eq] at h
  simp only [isJsSpace, Bool.or_eq_false_iff, Bool.and_eq_false_iff, decide_eq_false_iff_not]
  omega

theorem isDecDigit_ne_sign (c : Char) (h : isDecDigit c = true) : c ≠ '-' ∧ c ≠ '+' := by
  simp only [isDecDigit, Bool.and_eq_true, decide_eq_true_eq] at h
  constructor <;> (intro hc; subst hc; revert h; decide)

/-- A nonempty run of decimal digits is read as its value. -/
theorem mathInt_digits (ds : List Char) (hne : ds ≠ [])
    (hall : ∀ c ∈ ds, isDecDigit c = true) : mathInt ds = some (digitsValue ds : Int) := by
  cases ds with
  | nil => exact absurd rfl hne
  | cons c t =>
    have hc := hall c (List.mem_cons_self _ _)
    have hsp := isDecDigit_not_space c hc
    have hsg := isDecDigit_ne_sign c hc
    have htw : (c :: t).takeWhile isDecDigit = c :: t :=
      List.takeWhile_eq_self_iff.mpr hall
    simp [mathInt, List.dropWhile, hsp, hsg.1, hsg.2, htw]

/-- A minus sign and a nonempty run of decimal digits are read as the negated value. -/
theorem mathInt_neg_digits (ds : List Char) (hne : ds ≠ [])
    (hall : ∀ c ∈ ds, isDecDigit c = true) :
    mathInt ('-' :: ds) = some (-(digitsValue ds : Int)) := by
  have hsp : isJsSpace '-' = false := by decide
  have htw : ds.takeWhile isDecDigit = ds := List.takeWhile_eq_self_iff.mpr hall
  simp [mathInt, List.dropWhile, hsp, htw, hne]

theorem digitsValue_toDigits (n : Nat) : digitsValue (Nat.toDigits 10 n) = n :=
  digitsValue_toDigitsCore _ _ (Nat.lt_succ_self n)

theorem toDigits_all_digits (n : Nat) : ∀ c ∈ Nat.toDigits 10 n, isDecDigit c = true :=
  toDigitsCore_all_digits _ _

theorem toDigits_ne_nil (n : Nat) : Nat.toDigits 10 n ≠ [] :=
  toDigitsCore_ne_nil _ _

theorem toDigits_length_le (n e : Nat) (h : n < 10 ^ e) (he : 0 < e) :
    (Nat.toDigits 10 n).length ≤ e :=
  Nat.toDigitsCore_length 10 (by decide) _ n e h he

/-- A run of digits stands for a number below the power of ten of its length. -/
theorem digitsValue_lt_pow (ds : List Char) (hall : ∀ c ∈ ds, isDecDigit c = true) :
    digitsValue ds < 10 ^ ds.length := by
  induction ds using List.reverseRecOn with
  | nil => simp [digitsValue]
  | append_singleton xs c ih =>
    have hx := ih (fun d hd => hall d (List.mem_append_left _ hd))
    have hc := hall c (List.mem_append_right _ (List.mem_singleton_self c))
    simp only [isDecDigit, Bool.and_eq_true, decide_eq_true_eq] at hc
    rw [digitsValue_append_single, List.length_append, List.length_singleton, pow_succ]
    omega

theorem lt_pow_toDigits_length (n : Nat) : n < 10 ^ (Nat.toDigits 10 n).length := by
  have h := digitsValue_lt_pow (Nat.toDigits 10 n) (toDigits_all_digits n)
  rwa [digitsValue_toDigits] at h

/-! ## Doubles -/

theorem toDouble_small (n : Nat) (h : n < 2 ^ 53) : toDouble n = some n := by
  simp only [toDouble, h, if_true]

/-- Integers up to `2 ^ 53` are doubles. -/
theorem toDouble_safe (m : Nat) (h : m ≤ 2 ^ 53) : toDouble m = some m := by
  rcases Nat.lt_or_eq_of_le h with hlt | heq
  · exact toDouble_small m hlt
  · subst heq
    decide

/-- The Number value of an integer that is a double is that integer. -/
theorem numberOfInt_exact (z : Int) (h : toDouble z.natAbs = some z.natAbs) :
    numberOfInt z = .int z := by
  simp only [numberOfInt, h]
  congr 1
  split <;> omega

/-- Both decimals of one step of the search are at most the power of ten above `x`. -/
theorem candidate_bounds (x len m : Nat) (hx : x < 10 ^ len) (hm : m ≤ len) :
    x / 10 ^ m * 10 ^ m ≤ 10 ^ len ∧ x / 10 ^ m * 10 ^ m + 10 ^ m ≤ 10 ^ len := by
  obtain ⟨d, rfl⟩ : ∃ d, len = m + d := ⟨len - m, by omega⟩
  have hpos : 0 < 10 ^ m := by positivity
  have hlow : x / 10 ^ m * 10 ^ m ≤ x := Nat.div_mul_le_self _ _
  have hq : x / 10 ^ m < 10 ^ d := by
    rw [Nat.div_lt_iff_lt_mul hpos, ← pow_add, Nat.add_comm]
    exact hx
  have h2 : 10 ^ d * 10 ^ m = 10 ^ (m + d) := by rw [← pow_add, Nat.add_comm]
  have h1 : (x / 10 ^ m + 1) * 10 ^ m ≤ 10 ^ (m + d) :=
    h2 ▸ Nat.mul_le_mul_right _ hq
  refine ⟨le_trans hlow (le_of_lt hx), ?_⟩
  calc x / 10 ^ m * 10 ^ m + 10 ^ m = (x / 10 ^ m + 1) * 10 ^ m := by ring
    _ ≤ 10 ^ (m + d) := h1

/-- Every decimal tried for `x` is at most the power of ten above `x`. -/
theorem shortestCandidates_le (x c : Nat) (hc : c ∈ shortestCandidates x) :
    c ≤ 10 ^ (Nat.toDigits 10 x).length := by
  have hx := lt_pow_toDigits_length x
  simp only [shortestCandidates, List.mem_flatMap, List.mem_range] at hc
  obtain ⟨j, -, hj⟩ := hc
  obtain ⟨hlow, hup⟩ := candidate_bounds x _ ((Nat.toDigits 10 x).length - (j + 1)) hx
    (Nat.sub_le _ _)
  split at hj <;> simp only [List.mem_cons, List.mem_singleton, List.not_mem_nil, or_false] at hj
  · rcases hj with rfl | rfl
    · exact hlow
    · exact hup
  · rcases hj with rfl | rfl
    · exact hup
    · exact hlow

/-- The decimal written for a double reads back as that double. -/
theorem shortestRep_reads (x : Nat) (h : toDouble x = some x) :
    toDouble (shortestRep x) = some x := by
  simp only [shortestRep]
  split
  · exact h
  · cases hf : (shortestCandidates x).find? (fun c => toDouble c = some x) with
    | none => simpa using h
    | some c =>
      have := List.find?_some hf
      simpa using this

/-- The decimal written for a double below `10^21` is below `10^21`. -/
theorem shortestRep_lt (x : Nat) (h : toDouble x = some x) (hx : x < 10 ^ 21) :
    shortestRep x < 10 ^ 21 := by
  have hrd := shortestRep_reads x h
  simp only [shortestRep] at hrd ⊢
  split
  · exact hx
  · rename_i hbig
    simp only [hbig, if_false] at hrd
    cases hf : (shortestCandidates x).find? (fun c => toDouble c = some x) with
    | none => simpa using hx
    | some c =>
      rw [hf] at hrd
      simp only [Option.getD_some] at hrd ⊢
      have hmem := List.mem_of_find?_eq_some hf
      have hle := shortestCandidates_le x c hmem
      have hlen : (Nat.toDigits 10 x).length ≤ 21 := toDigits_length_le x 21 hx (by decide)
      have hle2 : c ≤ 10 ^ 21 := le_trans hle (Nat.pow_le_pow_right (by decide) hlen)
      rcases Nat.lt_or_eq_of_le hle2 with hlt | heq
      · exact hlt
      · exfalso
        rw [heq] at hrd
        have h21 : toDouble (10 ^ 21) = some (10 ^ 21) := by decide
        rw [h21] at hrd
        injection hrd with hrd
        omega

/-- What is written for a Number below `10^21` is read back by `parseInt` as that
Number. -/
theorem parseInt_numToString_int (z : Int) (h : z.natAbs < 10 ^ 21)
    (hnum : toDouble z.natAbs = some z.natAbs) :
    parseInt (numToString (.int z)) = .int z := by
  have hy1 := shortestRep_lt z.natAbs hnum h
  have hy2 := shortestRep_reads z.natAbs hnum
  by_cases hneg : z < 0
  · have hypos : shortestRep z.natAbs ≠ 0 := by
      intro h0
      rw [h0] at hy2
      have : toDouble 0 = some 0 := by decide
      rw [this] at hy2
      injection hy2 with hy2
      omega
    simp only [parseInt, numToString, hneg, if_true, hy1, List.singleton_append, parseIntChars,
      mathInt_neg_digits _ (toDigits_ne_nil _) (toDigits_all_digits _), digitsValue_toDigits,
      numberOfInt, Int.natAbs_neg, Int.natAbs_ofNat, hy2]
    congr 1
    have : (-(shortestRep z.natAbs : Int) < 0) := by omega
    simp only [this, if_true]
    omega
  · simp only [parseInt, numToString, hneg, if_false, hy1, if_true, List.nil_append,
      parseIntChars, mathInt_digits _ (toDigits_ne_nil _) (toDigits_all_digits _),
      digitsValue_toDigits, numberOfInt, Int.natAbs_ofNat, hy2]
    congr 1
    have : ¬ ((shortestRep z.natAbs : Int) < 0) := by omega
    simp only [this, if_false]
    omega

theorem claimCount_int (z : Int) (h : z.natAbs < 10 ^ 21)
    (hnum : toDouble z.natAbs = some z.natAbs) :
    claimCount (.int z) = .int (max 1 z) := by
  by_cases h0 : z = 0
  · subst h0
    decide
  · simp only [claimCount, orOne, h0, if_false, parseInt_numToString_int z h hnum, mathMax1]

/-! ## Trace lemmas -/

theorem submitted_append (xs ys : List Event) :
    submitted (xs ++ ys) = submitted xs ++ submitted ys := by
  induction xs with
  | nil => rfl
  | cons e es ih => cases e <;> simp [submitted, ih]

theorem reads_append (xs ys : List Event) : reads (xs ++ ys) = reads xs ++ reads ys := by
  induction xs with
  | nil => rfl
  | cons e es ih => cases e <;> simp [reads, ih]

theorem logged_append (lvl : Level) (xs ys : List Event) :
    logged lvl (xs ++ ys) = logged lvl xs ++ logged lvl ys := by
  induction xs with
  | nil => rfl
  | cons e es ih =>
    cases e <;> simp [logged, ih]
    split <;> simp

/-! ## Loops -/

/-- A loop whose body never throws runs every pass, each from the world the
previous one left. -/
theorem forEach_of_ok {σ α : Type} (body : α → Act σ Unit) (xs : List α) (w : World σ)
    (hok : ∀ x ∈ xs, ∀ w, (body x w).1 = .ok ()) :
    forEach body xs w = (.ok (), xs.foldl (fun w x => (body x w).2) w) := by
  induction xs generalizing w with
  | nil => rfl
  | cons x xs ih =>
    have h := hok x (List.mem_cons_self _ _) w
    rcases hb : body x w with ⟨r, w1⟩
    rw [hb] at h
    simp only at h
    subst h
    simp only [forEach, hb, List.foldl_cons]
    exact ih w1 (fun y hy => hok y (List.mem_cons_of_mem _ hy))

/-- The first pass that throws ends the loop: nothing of the later passes runs. -/
theorem forEach_stops {σ α : Type} (body : α → Act σ Unit) (xs : List α) (x : α)
    (ys : List α) (w wa wc : World σ) (e : JsError)
    (hpre : forEach body xs w = (.ok (), wa)) (hfail : body x wa = (.error e, wc)) :
    forEach body (xs ++ x :: ys) w = (.error e, wc) := by
  induction xs generalizing w with
  | nil =>
    simp only [forEach, Prod.mk.injEq, true_and] at hpre
    subst hpre
    simp [forEach, hfail]
  | cons y xs ih =>
    simp only [List.cons_append, forEach] at hpre ⊢
    rcases hb : body y w with ⟨r, w1⟩
    rw [hb] at hpre
    cases r with
    | error e1 => simp at hpre
    | ok u => exact ih w1 hpre

/-- Transactions submitted by a run of passes that each submit one. -/
theorem submitted_foldl {σ α : Type} (step : World σ → α → World σ) (g : α → List Call)
    (hstep : ∀ w x, submitted (step w x).trace = submitted w.trace ++ g x)
    (xs : List α) (w : World σ) :
    submitted (xs.foldl step w).trace = submitted w.trace ++ (xs.map g).flatten := by
  induction xs generalizing w with
  | nil => simp
  | cons x xs ih => simp [ih, hstep, List.append_assoc]

theorem flatten_map_singleton {α β : Type} (f : α → β) (xs : List α) :
    (xs.map (fun x => [f x])).flatten = xs.map f := by
  induction xs with
  | nil => rfl
  | cons x xs ih => simp [ih]

/-! ## ensureAllowance: theorems -/

/-- Both branches of `ensureAllowance` after a successful allowance read. -/
theorem ensureAllowance_cases {σ : Type} (E : Chain σ) (L : Lib) (tokenCtr : Contract)
    (ownerAddr spender : Address) (amount : Int) (w : World σ) (current : Nat) (c1 : σ)
    (hread : E.allowance tokenCtr ownerAddr spender w.chain = (.ok current, c1)) :
    (amount ≤ current →
      (ensureAllowance E L tokenCtr ownerAddr spender amount w).1 = .ok false ∧
      submitted (ensureAllowance E L tokenCtr ownerAddr spender amount w).2.trace
        = submitted w.trace) ∧
    ((current : Int) < amount →
      submitted (ensureAllowance E L tokenCtr ownerAddr spender amount w).2.trace
        = submitted w.trace ++ [.approve tokenCtr spender amount] ∧
      ∀ (h : String) (c2 : σ) (rc : Receipt) (c3 : σ),
        E.submit (.approve tokenCtr spender amount) c1 = (.ok h, c2) →
        E.wait ⟨.approve tokenCtr spender amount, h⟩ c2 = (.ok rc, c3) →
        (ensureAllowance E L tokenCtr ownerAddr spender amount w).1 = .ok true ∧
        (ensureAllowance E L tokenCtr ownerAddr spender amount w).2.chain = c3 ∧
        (ensureAllowance E L tokenCtr ownerAddr spender amount w).2.trace = w.trace ++
          [.read (.allowance tokenCtr ownerAddr spender),
           .log .step ("Approving allowance to " ++ spender ++ " ..."),
           .submit (.approve tokenCtr spender amount),
           .wait ⟨.approve tokenCtr spender amount, h⟩,
           .log .success ("Approve confirmed. tx: " ++
             txHash L ⟨.approve tokenCtr spender amount, h⟩ rc)]) := by
  constructor
  · intro hle
    simp [ensureAllowance, doRead, hread, toBigInt, hle, World.emit, submitted_append, submitted]
  · intro hlt
    have hn : ¬ amount ≤ current := not_le.mpr hlt
    constructor
    · simp only [ensureAllowance, doRead, hread, toBigInt, ge_iff_le, hn, if_false, doSubmit,
        logger, World.emit]
      rcases hs : E.submit (.approve tokenCtr spender amount) c1 with ⟨r, c2⟩
      cases r with
      | error e => simp [submitted_append, submitted]
      | ok h =>
        simp only [doWait, World.emit]
        rcases hw : E.wait ⟨.approve tokenCtr spender amount, h⟩ c2 with ⟨r2, c3⟩
        cases r2 <;> simp [submitted_append, submitted]
    · intro h c2 rc c3 hs hw
      simp [ensureAllowance, doRead, hread, toBigInt, hn, doSubmit, doWait, logger,
        World.emit, hs, hw]

/-- C2: when the allowance read gives `current`: if `current ≥ amount`,
`ensureAllowance` returns `false` and submits nothing; otherwise it submits exactly
one transaction, `approve(spender, amount)` on the token, and when that
transaction is accepted and mined it has waited for it and returns `true`. -/
theorem ensureAllowance_spec {σ : Type} (E : Chain σ) (L : Lib) (tokenCtr : Contract)
    (ownerAddr spender : Address) (amount : Int) (w : World σ) (current : Nat) (c1 : σ)
    (hread : E.allowance tokenCtr ownerAddr spender w.chain = (.ok current, c1)) :
    (amount ≤ current →
      (ensureAllowance E L tokenCtr ownerAddr spender amount w).1 = .ok false ∧
      submitted (ensureAllowance E L tokenCtr ownerAddr spender amount w).2.trace
        = submitted w.trace) ∧
    ((current : Int) < amount →
      submitted (ensureAllowance E L tokenCtr ownerAddr spender amount w).2.trace
        = submitted w.trace ++ [.approve tokenCtr spender amount] ∧
      ∀ (h : String) (c2 : σ) (rc : Receipt) (c3 : σ),
        E.submit (.approve tokenCtr spender amount) c1 = (.ok h, c2) →
        E.wait ⟨.approve tokenCtr spender amount, h⟩ c2 = (.ok rc, c3) →
        (ensureAllowance E L tokenCtr ownerAddr spender amount w).1 = .ok true ∧
        (ensureAllowance E L tokenCtr ownerAddr spender amount w).2.chain = c3 ∧
        (ensureAllowance E L tokenCtr ownerAddr spender amount w).2.trace = w.trace ++
          [.read (.allowance tokenCtr ownerAddr spender),
           .log .step ("Approving allowance to " ++ spender ++ " ..."),
           .submit (.approve tokenCtr spender amount),
           .wait ⟨.approve tokenCtr spender amount, h⟩,
           .log .success ("Approve confirmed. tx: " ++
             txHash L ⟨.approve tokenCtr spender amount, h⟩ rc)]) :=
  ensureAllowance_cases E L tokenCtr ownerAddr spender amount w current c1 hread

theorem ensureAllowance_spec_witness :
    submitted (ensureAllowance (simChain []) simLib ⟨ADDR.WETH, alice.address⟩ alice.address
        ADDR.DEPOSIT 10 (simWorld 3 50)).2.trace
      = [.approve ⟨ADDR.WETH, alice.address⟩ ADDR.DEPOSIT 10] ∧
    (ensureAllowance (simChain []) simLib ⟨ADDR.WETH, alice.address⟩ alice.address
        ADDR.DEPOSIT 10 (simWorld 3 50)).1 = .ok true ∧
    (ensureAllowance (simChain []) simLib ⟨ADDR.WETH, alice.address⟩ alice.address
        ADDR.DEPOSIT 10 (simWorld 30 50)).1 = .ok false :=
  ⟨((ensureAllowance_spec (simChain []) simLib ⟨ADDR.WETH, alice.address⟩ alice.address
        ADDR.DEPOSIT 10 (simWorld 3 50) 3 ⟨3, 50⟩ rfl).2 (by decide)).1,
   (((ensureAllowance_spec (simChain []) simLib ⟨ADDR.WETH, alice.address⟩ alice.address
        ADDR.DEPOSIT 10 (simWorld 3 50) 3 ⟨3, 50⟩ rfl).2 (by decide)).2
        "0xa" ⟨10, 50⟩ ⟨"0xa", "0xa"⟩ ⟨10, 50⟩ rfl rfl).1,
   ((ensureAllowance_spec (simChain []) simLib ⟨ADDR.WETH, alice.address⟩ alice.address
        ADDR.DEPOSIT 10 (simWorld 30 50) 30 ⟨30, 50⟩ rfl).1 (by decide)).1⟩

/-- What one call of `ensureAllowance` adds to the submitted transactions:
nothing, or the one approval. -/
theorem ensureAllowance_submitted {σ : Type} (E : Chain σ) (L : Lib) (tokenCtr : Contract)
    (ownerAddr spender : Address) (amount : Int) (w : World σ) :
    submitted (ensureAllowance E L tokenCtr ownerAddr spender amount w).2.trace
        = submitted w.trace ∨
    submitted (ensureAllowance E L tokenCtr ownerAddr spender amount w).2.trace
        = submitted w.trace ++ [.approve tokenCtr spender amount] := by
  rcases hr : E.allowance tokenCtr ownerAddr spender w.chain with ⟨r, c1⟩
  cases r with
  | error e =>
    left
    simp [ensureAllowance, doRead, hr, World.emit, submitted_append, submitted]
  | ok current =>
    by_cases hle : amount ≤ current
    · exact Or.inl ((ensureAllowance_cases E L tokenCtr ownerAddr spender amount w current c1 hr).1
        hle).2
    · exact Or.inr ((ensureAllowance_cases E L tokenCtr ownerAddr spender amount w current c1 hr).2
        (not_le.mp hle)).1

/-- C4: on a chain where a mined `approve(spender, amount)` leaves
`allowance(owner, spender)` at `amount` and where reading the allowance again gives
the same value, a second call of `ensureAllowance` right after a first one that
returned gives `false` and submits nothing, so the two calls together submit at most
one approval. -/
theorem ensureAllowance_idempotent {σ : Type} (E : Chain σ) (L : Lib) (tokenCtr : Contract)
    (ownerAddr spender : Address) (amount : Int) (w w1 : World σ) (b : Bool)
    (hstable : ∀ (c : σ) (v : Nat) (c1 : σ),
      E.allowance tokenCtr ownerAddr spender c = (.ok v, c1) →
      ∃ c2, E.allowance tokenCtr ownerAddr spender c1 = (.ok v, c2))
    (happrove : ∀ (c : σ) (h : String) (c1 : σ) (rc : Receipt) (c2 : σ),
      E.submit (.approve tokenCtr spender amount) c = (.ok h, c1) →
      E.wait ⟨.approve tokenCtr spender amount, h⟩ c1 = (.ok rc, c2) →
      ∃ (v : Nat) (c3 : σ),
        E.allowance tokenCtr ownerAddr spender c2 = (.ok v, c3) ∧ (v : Int) = amount)
    (hfirst : ensureAllowance E L tokenCtr ownerAddr spender amount w = (.ok b, w1)) :
    (ensureAllowance E L tokenCtr ownerAddr spender amount w1).1 = .ok false ∧
    submitted (ensureAllowance E L tokenCtr ownerAddr spender amount w1).2.trace
      = submitted w1.trace ∧
    ∃ l : List Call, l.length ≤ 1 ∧
      submitted (ensureAllowance E L tokenCtr ownerAddr spender amount w1).2.trace
        = submitted w.trace ++ l := by
  -- the allowance seen by the second call covers the amount
  have key : ∃ (v : Nat) (c : σ),
      E.allowance tokenCtr ownerAddr spender w1.chain = (.ok v, c) ∧ amount ≤ (v : Int) := by
    rcases hr : E.allowance tokenCtr ownerAddr spender w.chain with ⟨r, c1⟩
    cases r with
    | error e => simp [ensureAllowance, doRead, hr] at hfirst
    | ok current =>
      by_cases hle : amount ≤ current
      · have h1 : w1.chain = c1 := by
          simp [ensureAllowance, doRead, hr, toBigInt, hle, World.emit] at hfirst
          rw [← hfirst.2]
        obtain ⟨c2, hc2⟩ := hstable _ _ _ hr
        exact ⟨current, c2, by rw [h1]; exact hc2, hle⟩
      · rcases hs : E.submit (.approve tokenCtr spender amount) c1 with ⟨r1, c2⟩
        cases r1 with
        | error e =>
          simp [ensureAllowance, doRead, hr, toBigInt, hle, World.emit, doSubmit, logger, hs]
            at hfirst
        | ok h =>
          rcases hw : E.wait ⟨.approve tokenCtr spender amount, h⟩ c2 with ⟨r2, c3⟩
          cases r2 with
          | error e =>
            simp [ensureAllowance, doRead, hr, toBigInt, hle, World.emit, doSubmit, logger, hs,
              doWait, hw] at hfirst
          | ok rc =>
            have h1 : w1.chain = c3 := by
              simp [ensureAllowance, doRead, hr, toBigInt, hle, World.emit, doSubmit, logger, hs,
                doWait, hw] at hfirst
              rw [← hfirst.2]
            obtain ⟨v, c4, hv, hva⟩ := happrove _ _ _ _ _ hs hw
            exact ⟨v, c4, by rw [h1]; exact hv, le_of_eq hva.symm⟩
  obtain ⟨v, c, hv, hva⟩ := key
  have h2 := (ensureAllowance_cases E L tokenCtr ownerAddr spender amount w1 v c hv).1 hva
  refine ⟨h2.1, h2.2, ?_⟩
  have h3 := ensureAllowance_submitted E L tokenCtr ownerAddr spender amount w
  rw [hfirst] at h3
  rw [h2.2]
  rcases h3 with h3 | h3
  · exact ⟨[], by simp, by simpa using h3⟩
  · exact ⟨[.approve tokenCtr spender amount], by simp, h3⟩

theorem ensureAllowance_idempotent_witness :
    (ensureAllowance (simChain []) simLib ⟨ADDR.WETH, alice.address⟩ alice.address ADDR.DEPOSIT 10
      (ensureAllowance (simChain []) simLib ⟨ADDR.WETH, alice.address⟩ alice.address ADDR.DEPOSIT 10
        (simWorld 3 50)).2).1 = .ok false :=
  (ensureAllowance_idempotent (simChain []) simLib ⟨ADDR.WETH, alice.address⟩ alice.address
    ADDR.DEPOSIT 10 (simWorld 3 50) _ true
    (fun c v c1 h => ⟨c1, by
      simp only [simChain, Prod.mk.injEq, Except.ok.injEq] at h ⊢
      obtain ⟨h1, h2⟩ := h
      subst h2
      exact ⟨h1, trivial⟩⟩)
    (fun c h c1 rc c2 hs hw => by
      simp only [simChain] at hs hw
      split at hs
      · simp at hs
      · have e1 := (Prod.mk.inj hs).2
        have e2 := (Prod.mk.inj hw).2
        refine ⟨10, c2, ?_, rfl⟩
        rw [← e2, ← e1]
        rfl)
    rfl).1

/-! ## doClaim -/

theorem claimIteration_ok {σ : Type} (E : Chain σ) (L : Lib) (wallet : Wallet) (idx : Nat)
    (w : World σ) : (claimIteration E L wallet idx w).1 = .ok () := by
  rcases hs : E.submit (.claim ⟨ADDR.WITHDRAW, wallet.address⟩ idx wallet.address) w.chain
    with ⟨r, c1⟩
  cases r with
  | error e => simp [claimIteration, doSubmit, logger, World.emit, hs]
  | ok h =>
    rcases hw : E.wait ⟨.claim ⟨ADDR.WITHDRAW, wallet.address⟩ idx wallet.address, h⟩ c1
      with ⟨r2, c2⟩
    cases r2 <;> simp [claimIteration, doSubmit, doWait, logger, World.emit, hs, hw]

theorem claimIteration_submitted {σ : Type} (E : Chain σ) (L : Lib) (wallet : Wallet)
    (idx : Nat) (w : World σ) :
    submitted (claimIteration E L wallet idx w).2.trace
      = submitted w.trace ++ [.claim ⟨ADDR.WITHDRAW, wallet.address⟩ idx wallet.address] := by
  rcases hs : E.submit (.claim ⟨ADDR.WITHDRAW, wallet.address⟩ idx wallet.address) w.chain
    with ⟨r, c1⟩
  cases r with
  | error e =>
    simp [claimIteration, doSubmit, logger, World.emit, hs, submitted_append, submitted]
  | ok h =>
    rcases hw : E.wait ⟨.claim ⟨ADDR.WITHDRAW, wallet.address⟩ idx wallet.address, h⟩ c1
      with ⟨r2, c2⟩
    cases r2 <;>
      simp [claimIteration, doSubmit, doWait, logger, World.emit, hs, hw, submitted_append,
        submitted]

/-- A claim attempt whose submission throws logs one warning. -/
theorem claimIteration_warn_submit {σ : Type} (E : Chain σ) (L : Lib) (wallet : Wallet)
    (idx : Nat) (w : World σ) (e : JsError) (c1 : σ)
    (hs : E.submit (.claim ⟨ADDR.WITHDRAW, wallet.address⟩ idx wallet.address) w.chain
      = (.error e, c1)) :
    logged .warn (claimIteration E L wallet idx w).2.trace = logged .warn w.trace ++
      ["Claim index " ++ numToString (.int idx) ++ " failed: " ++ errorMessage e] := by
  simp [claimIteration, doSubmit, logger, World.emit, hs, logged_append, logged]

/-- A claim attempt whose transaction fails while being mined logs one warning. -/
theorem claimIteration_warn_wait {σ : Type} (E : Chain σ) (L : Lib) (wallet : Wallet)
    (idx : Nat) (w : World σ) (h : String) (e : JsError) (c1 c2 : σ)
    (hs : E.submit (.claim ⟨ADDR.WITHDRAW, wallet.address⟩ idx wallet.address) w.chain
      = (.ok h, c1))
    (hw : E.wait ⟨.claim ⟨ADDR.WITHDRAW, wallet.address⟩ idx wallet.address, h⟩ c1
      = (.error e, c2)) :
    logged .warn (claimIteration E L wallet idx w).2.trace = logged .warn w.trace ++
      ["Claim index " ++ numToString (.int idx) ++ " failed: " ++ errorMessage e] := by
  simp [claimIteration, doSubmit, doWait, logger, World.emit, hs, hw, logged_append, logged]

theorem doClaim_eq {σ : Type} (E : Chain σ) (L : Lib) (wallet : Wallet) (attempts : JsNum)
    (w : World σ) :
    doClaim E L wallet attempts w = (.ok (),
      (loopFrom0 (claimCount attempts)).foldl (fun w idx => (claimIteration E L wallet idx w).2)
        (logger .info ("Proceeding to direct claims (no index scanning). " ++
          "If a request isn't ready (~25 min), the tx may revert.") w)) := by
  simp only [doClaim]
  exact forEach_of_ok _ _ _ (fun idx _ w => claimIteration_ok E L wallet idx w)

theorem doClaim_submitted {σ : Type} (E : Chain σ) (L : Lib) (wallet : Wallet)
    (attempts : JsNum) (w : World σ) :
    submitted (doClaim E L wallet attempts w).2.trace = submitted w.trace ++
      (loopFrom0 (claimCount attempts)).map
        (fun idx => Call.claim ⟨ADDR.WITHDRAW, wallet.address⟩ idx wallet.address) := by
  rw [doClaim_eq]
  simp only
  rw [submitted_foldl _ (fun idx => [Call.claim ⟨ADDR.WITHDRAW, wallet.address⟩ idx wallet.address])
    (fun w idx => claimIteration_submitted E L wallet idx w), flatten_map_singleton]
  simp only [logger, World.emit, submitted_append, submitted, List.append_nil]

/-- C3 (amended): whatever claim transactions fail, `doClaim` returns without
throwing and attempts `claim(idx, wallet.address)` once for each
`idx = 0, ..., max(1, attempts) - 1`, in increasing order, for a count of magnitude
below `10^21` (the count being a Number, `hnum`); every pass of the loop ends
normally, and a pass whose transaction fails on submission or while being mined logs
one warning with the reason. -/
theorem doClaim_attempts {σ : Type} (E : Chain σ) (L : Lib) (wallet : Wallet) (attempts : Int)
    (hsize : attempts.natAbs < 10 ^ 21)
    (hnum : toDouble attempts.natAbs = some attempts.natAbs) (w : World σ) :
    (doClaim E L wallet (.int attempts) w).1 = .ok () ∧
    submitted (doClaim E L wallet (.int attempts) w).2.trace = submitted w.trace ++
      (List.range (max 1 attempts).toNat).map
        (fun idx => Call.claim ⟨ADDR.WITHDRAW, wallet.address⟩ idx wallet.address) ∧
    (doClaim E L wallet (.int attempts) w).2 =
      (List.range (max 1 attempts).toNat).foldl
        (fun w idx => (claimIteration E L wallet idx w).2)
        (logger .info ("Proceeding to direct claims (no index scanning). " ++
          "If a request isn't ready (~25 min), the tx may revert.") w) ∧
    ∀ (idx : Nat) (w1 : World σ),
      (claimIteration E L wallet idx w1).1 = .ok () ∧
      (∀ (e : JsError) (c1 : σ),
        E.submit (.claim ⟨ADDR.WITHDRAW, wallet.address⟩ idx wallet.address) w1.chain
          = (.error e, c1) →
        logged .warn (claimIteration E L wallet idx w1).2.trace = logged .warn w1.trace ++
          ["Claim index " ++ numToString (.int idx) ++ " failed: " ++ errorMessage e]) ∧
      (∀ (h : String) (e : JsError) (c1 c2 : σ),
        E.submit (.claim ⟨ADDR.WITHDRAW, wallet.address⟩ idx wallet.address) w1.chain
          = (.ok h, c1) →
        E.wait ⟨.claim ⟨ADDR.WITHDRAW, wallet.address⟩ idx wallet.address, h⟩ c1
          = (.error e, c2) →
        logged .warn (claimIteration E L wallet idx w1).2.trace = logged .warn w1.trace ++
          ["Claim index " ++ numToString (.int idx) ++ " failed: " ++ errorMessage e]) := by
  have hc : loopFrom0 (claimCount (.int attempts)) = List.range (max 1 attempts).toNat := by
    rw [claimCount_int attempts hsize hnum]
    rfl
  refine ⟨?_, ?_, ?_, ?_⟩
  · rw [doClaim_eq]
  · rw [doClaim_submitted, hc]
  · rw [doClaim_eq, hc]
  · intro idx w1
    exact ⟨claimIteration_ok E L wallet idx w1,
      fun e c1 hs => claimIteration_warn_submit E L wallet idx w1 e c1 hs,
      fun h e c1 c2 hs hw => claimIteration_warn_wait E L wallet idx w1 h e c1 c2 hs hw⟩

theorem doClaim_attempts_witness :
    (doClaim (simChain [.claim ⟨ADDR.WITHDRAW, alice.address⟩ 1 alice.address]) simLib alice
      (.int 3) (simWorld 0 0)).1 = .ok () ∧
    submitted (doClaim (simChain [.claim ⟨ADDR.WITHDRAW, alice.address⟩ 1 alice.address]) simLib
      alice (.int 3) (simWorld 0 0)).2.trace
      = [.claim ⟨ADDR.WITHDRAW, alice.address⟩ 0 alice.address,
         .claim ⟨ADDR.WITHDRAW, alice.address⟩ 1 alice.address,
         .claim ⟨ADDR.WITHDRAW, alice.address⟩ 2 alice.address] :=
  ⟨(doClaim_attempts (simChain [.claim ⟨ADDR.WITHDRAW, alice.address⟩ 1 alice.address]) simLib
      alice 3 (by decide) (by decide) (simWorld 0 0)).1,
   (doClaim_attempts (simChain [.claim ⟨ADDR.WITHDRAW, alice.address⟩ 1 alice.address]) simLib
      alice 3 (by decide) (by decide) (simWorld 0 0)).2.1⟩

/-- C3 as stated fails: asked for 0 attempts, `doClaim` still submits one claim
(index 0), so the number of attempts is not the requested count. -/
theorem doClaim_zero_attempts :
    submitted (doClaim (simChain []) simLib alice (.int 0) (simWorld 0 0)).2.trace
      = [.claim ⟨ADDR.WITHDRAW, alice.address⟩ 0 alice.address] ∧
    (submitted (doClaim (simChain []) simLib alice (.int 0) (simWorld 0 0)).2.trace).length
      ≠ Int.toNat 0 := by
  decide

/-! ## doDeposit -/

theorem simChain_reliable : (simChain []).Reliable := by
  refine ⟨?_, ?_, ?_, ?_⟩
  · intro c s
    cases c <;> simp [simChain]
  · intro tx s
    exact ⟨_, rfl⟩
  · intro ctr owner s
    exact ⟨_, rfl⟩
  · intro ctr owner spender s
    exact ⟨_, rfl⟩

/-- On a reliable chain `ensureAllowance` returns, having submitted the approval
exactly when the allowance it read was too small. -/
theorem ensureAllowance_reliable {σ : Type} (E : Chain σ) (L : Lib) (hrel : E.Reliable)
    (tokenCtr : Contract) (ownerAddr spender : Address) (amount : Int) (w : World σ)
    (current : Nat) (c1 : σ)
    (hread : E.allowance tokenCtr ownerAddr spender w.chain = (.ok current, c1)) :
    (∃ b : Bool, (ensureAllowance E L tokenCtr ownerAddr spender amount w).1 = .ok b) ∧
    submitted (ensureAllowance E L tokenCtr ownerAddr spender amount w).2.trace
      = submitted w.trace ++
        (if (current : Int) < amount then [Call.approve tokenCtr spender amount] else []) ∧
    reads (ensureAllowance E L tokenCtr ownerAddr spender amount w).2.trace
      = reads w.trace ++ [.allowance tokenCtr ownerAddr spender] := by
  by_cases hle : amount ≤ current
  · have he : ensureAllowance E L tokenCtr ownerAddr spender amount w
        = (.ok false, { (w.emit (.read (.allowance tokenCtr ownerAddr spender))) with
            chain := c1 }) := by
      simp [ensureAllowance, doRead, hread, toBigInt, hle]
    rw [he]
    refine ⟨⟨false, rfl⟩, ?_, ?_⟩
    · simp [World.emit, submitted_append, submitted, not_lt.mpr hle]
    · simp [World.emit, reads_append, reads]
  · obtain ⟨h, hh⟩ := hrel.1 (.approve tokenCtr spender amount) c1
    rcases hs : E.submit (.approve tokenCtr spender amount) c1 with ⟨r, c2⟩
    rw [hs] at hh
    simp only at hh
    subst hh
    obtain ⟨rc, hrc⟩ := hrel.2.1 ⟨.approve tokenCtr spender amount, h⟩ c2
    rcases hw : E.wait ⟨.approve tokenCtr spender amount, h⟩ c2 with ⟨r2, c3⟩
    rw [hw] at hrc
    simp only at hrc
    subst hrc
    refine ⟨⟨true, ?_⟩, ?_, ?_⟩
    · simp [ensureAllowance, doRead, hread, toBigInt, hle, doSubmit, doWait, logger, World.emit,
        hs, hw]
    · simp [ensureAllowance, doRead, hread, toBigInt, hle, doSubmit, doWait, logger, World.emit,
        hs, hw, submitted_append, submitted, not_le.mp hle]
    · simp [ensureAllowance, doRead, hread, toBigInt, hle, doSubmit, doWait, logger, World.emit,
        hs, hw, reads_append, reads]

/-- An iteration of `doDeposit` that reads a balance below the amount logs the
shortage and submits nothing. -/
theorem depositIteration_low {σ : Type} (E : Chain σ) (L : Lib) (wallet : Wallet)
    (amountWeth : String) (times : JsNum) (amountWei : Int) (i : Nat) (w : World σ)
    (bal : Nat) (c1 : σ)
    (hbal : E.balanceOf ⟨ADDR.WETH, wallet.address⟩ wallet.address w.chain = (.ok bal, c1))
    (hlt : (bal : Int) < amountWei) :
    (depositIteration E L wallet amountWeth times amountWei i w).1 = .ok () ∧
    submitted (depositIteration E L wallet amountWeth times amountWei i w).2.trace
      = submitted w.trace := by
  simp [depositIteration, doRead, logger, World.emit, hbal, toBigInt, hlt, submitted_append,
    submitted]

/-- An iteration of `doDeposit` on a reliable chain that reads a sufficient balance
submits the deposit once, after the approval when the allowance was short. -/
theorem depositIteration_high {σ : Type} (E : Chain σ) (L : Lib) (hrel : E.Reliable)
    (wallet : Wallet) (amountWeth : String) (times : JsNum) (amountWei : Int) (i : Nat)
    (w : World σ) (bal : Nat) (c1 : σ) (cur : Nat) (c2 : σ)
    (hbal : E.balanceOf ⟨ADDR.WETH, wallet.address⟩ wallet.address w.chain = (.ok bal, c1))
    (hge : amountWei ≤ bal)
    (hcur : E.allowance ⟨ADDR.WETH, wallet.address⟩ wallet.address ADDR.DEPOSIT c1
      = (.ok cur, c2)) :
    (depositIteration E L wallet amountWeth times amountWei i w).1 = .ok () ∧
    submitted (depositIteration E L wallet amountWeth times amountWei i w).2.trace
      = submitted w.trace ++
        (if (cur : Int) < amountWei
          then [Call.approve ⟨ADDR.WETH, wallet.address⟩ ADDR.DEPOSIT amountWei] else []) ++
        [Call.deposit ⟨ADDR.DEPOSIT, wallet.address⟩ ADDR.WETH amountWei] := by
  have hnlt : ¬ ((bal : Int) < amountWei) := not_lt.mpr hge
  have key := ensureAllowance_reliable E L hrel ⟨ADDR.WETH, wallet.address⟩ wallet.address
    ADDR.DEPOSIT amountWei
    { chain := c1,
      trace := w.trace ++ [.log .step ("Deposit " ++ numToString (.int i) ++ "/" ++
        numToString times ++ " for " ++ wallet.address ++ " ..."),
        .read (.balanceOf ⟨ADDR.WETH, wallet.address⟩ wallet.address)],
      cursor := w.cursor } cur c2 hcur
  obtain ⟨⟨b, hb⟩, hsub, -⟩ := key
  simp only [submitted_append, submitted, List.append_nil] at hsub
  simp only [depositIteration, doRead, logger, World.emit, hbal, toBigInt, hnlt, if_false,
    List.append_assoc, List.singleton_append]
  split
  · rename_i e w2 heq
    exact absurd ((congrArg Prod.fst heq).symm.trans hb) (by simp)
  · rename_i b2 w2 heq
    have hsub2 : submitted w2.trace = submitted w.trace ++
        (if (cur : Int) < amountWei
          then [Call.approve ⟨ADDR.WETH, wallet.address⟩ ADDR.DEPOSIT amountWei] else []) :=
      (congrArg (fun r => submitted r.2.trace) heq).symm.trans hsub
    obtain ⟨h, hh⟩ := hrel.1 (.deposit ⟨ADDR.DEPOSIT, wallet.address⟩ ADDR.WETH amountWei)
      w2.chain
    rcases hs : E.submit (.deposit ⟨ADDR.DEPOSIT, wallet.address⟩ ADDR.WETH amountWei)
      w2.chain with ⟨r, c3⟩
    rw [hs] at hh
    simp only at hh
    subst hh
    obtain ⟨rc, hrc⟩ := hrel.2.1
      ⟨.deposit ⟨ADDR.DEPOSIT, wallet.address⟩ ADDR.WETH amountWei, h⟩ c3
    rcases hw : E.wait ⟨.deposit ⟨ADDR.DEPOSIT, wallet.address⟩ ADDR.WETH amountWei, h⟩ c3
      with ⟨r2, c4⟩
    rw [hw] at hrc
    simp only at hrc
    subst hrc
    simp [doSubmit, doWait, World.emit, hs, hw, submitted_append, submitted, hsub2]

theorem depositIteration_ok {σ : Type} (E : Chain σ) (L : Lib) (hrel : E.Reliable)
    (wallet : Wallet) (amountWeth : String) (times : JsNum) (amountWei : Int) (i : Nat)
    (w : World σ) : (depositIteration E L wallet amountWeth times amountWei i w).1 = .ok () := by
  obtain ⟨bal, hb⟩ := hrel.2.2.1 ⟨ADDR.WETH, wallet.address⟩ wallet.address w.chain
  rcases hbal : E.balanceOf ⟨ADDR.WETH, wallet.address⟩ wallet.address w.chain with ⟨r, c1⟩
  rw [hbal] at hb
  simp only at hb
  subst hb
  by_cases hlt : (bal : Int) < amountWei
  · exact (depositIteration_low E L wallet amountWeth times amountWei i w bal c1 hbal hlt).1
  · obtain ⟨cur, hc⟩ := hrel.2.2.2 ⟨ADDR.WETH, wallet.address⟩ wallet.address ADDR.DEPOSIT c1
    rcases hcur : E.allowance ⟨ADDR.WETH, wallet.address⟩ wallet.address ADDR.DEPOSIT c1
      with ⟨r, c2⟩
    rw [hcur] at hc
    simp only at hc
    subst hc
    exact (depositIteration_high E L hrel wallet amountWeth times amountWei i w bal c1 cur c2
      hbal (not_lt.mp hlt) hcur).1

/-- C1: on a chain where no call throws, `doDeposit` runs the iterations
`1..times` in order, each from the world the previous one left, and returns.  An
iteration that reads a WETH balance below the amount submits no transaction; one
that reads a sufficient balance submits `deposit(WETH, amount)` exactly once,
preceded by the approval only when the allowance read was short. -/
theorem doDeposit_iterations {σ : Type} (E : Chain σ) (L : Lib) (wallet : Wallet)
    (amountWeth : String) (times : Int) (amountWei : Int) (w : World σ)
    (hrel : E.Reliable) (hparse : L.parseUnits amountWeth 18 = .ok amountWei) :
    doDeposit E L wallet amountWeth (.int times) w = (.ok (),
      (List.range' 1 times.toNat).foldl
        (fun w i => (depositIteration E L wallet amountWeth (.int times) amountWei i w).2) w) ∧
    ∀ (i : Nat) (w1 : World σ) (bal : Nat) (c1 : σ),
      E.balanceOf ⟨ADDR.WETH, wallet.address⟩ wallet.address w1.chain = (.ok bal, c1) →
      ((bal : Int) < amountWei →
        (depositIteration E L wallet amountWeth (.int times) amountWei i w1).1 = .ok () ∧
        submitted (depositIteration E L wallet amountWeth (.int times) amountWei i w1).2.trace
          = submitted w1.trace) ∧
      (amountWei ≤ bal → ∀ (cur : Nat) (c2 : σ),
        E.allowance ⟨ADDR.WETH, wallet.address⟩ wallet.address ADDR.DEPOSIT c1
          = (.ok cur, c2) →
        (depositIteration E L wallet amountWeth (.int times) amountWei i w1).1 = .ok () ∧
        submitted (depositIteration E L wallet amountWeth (.int times) amountWei i w1).2.trace
          = submitted w1.trace ++
            (if (cur : Int) < amountWei
              then [Call.approve ⟨ADDR.WETH, wallet.address⟩ ADDR.DEPOSIT amountWei]
              else []) ++
            [Call.deposit ⟨ADDR.DEPOSIT, wallet.address⟩ ADDR.WETH amountWei]) := by
  constructor
  · simp only [doDeposit, hparse, loopFrom1]
    exact forEach_of_ok _ _ _
      (fun i _ w => depositIteration_ok E L hrel wallet amountWeth _ amountWei i w)
  · intro i w1 bal c1 hbal
    exact ⟨fun hlt => depositIteration_low E L wallet amountWeth _ amountWei i w1 bal c1 hbal hlt,
      fun hge cur c2 hcur => depositIteration_high E L hrel wallet amountWeth _ amountWei i w1
        bal c1 cur c2 hbal hge hcur⟩

theorem doDeposit_iterations_witness :
    (doDeposit (simChain []) simLib alice "10" (.int 3) (simWorld 0 25)).1 = .ok () ∧
    submitted (depositIteration (simChain []) simLib alice "10" (.int 1) 10 1
      (simWorld 0 5)).2.trace = submitted (simWorld 0 5).trace :=
  ⟨congrArg Prod.fst
    (doDeposit_iterations (simChain []) simLib alice "10" 3 10 (simWorld 0 25)
      simChain_reliable rfl).1,
   (((doDeposit_iterations (simChain []) simLib alice "10" 1 10 (simWorld 0 5)
      simChain_reliable rfl).2 1 (simWorld 0 5) 5 ⟨0, 5⟩ rfl).1 (by decide)).2⟩

/-! ## doWithdraw -/

/-- An iteration of `doWithdraw` on a reliable chain: the allowance is read, the
approval is submitted when it is short, and the withdrawal is submitted once. -/
theorem withdrawIteration_reliable {σ : Type} (E : Chain σ) (L : Lib) (hrel : E.Reliable)
    (wallet : Wallet) (amountExEth : String) (times : JsNum) (amountWei : Int) (i : Nat)
    (w : World σ) (cur : Nat) (c1 : σ)
    (hcur : E.allowance ⟨ADDR.EXETH, wallet.address⟩ wallet.address ADDR.WITHDRAW w.chain
      = (.ok cur, c1)) :
    (withdrawIteration E L wallet amountExEth times amountWei i w).1 = .ok () ∧
    submitted (withdrawIteration E L wallet amountExEth times amountWei i w).2.trace
      = submitted w.trace ++
        (if (cur : Int) < amountWei
          then [Call.approve ⟨ADDR.EXETH, wallet.address⟩ ADDR.WITHDRAW amountWei] else []) ++
        [Call.withdraw ⟨ADDR.WITHDRAW, wallet.address⟩ amountWei ADDR.WETH] ∧
    reads (withdrawIteration E L wallet amountExEth times amountWei i w).2.trace
      = reads w.trace ++
        [.allowance ⟨ADDR.EXETH, wallet.address⟩ wallet.address ADDR.WITHDRAW] := by
  have key := ensureAllowance_reliable E L hrel ⟨ADDR.EXETH, wallet.address⟩ wallet.address
    ADDR.WITHDRAW amountWei
    { chain := w.chain,
      trace := w.trace ++ [.log .step ("Withdraw " ++ numToString (.int i) ++ "/" ++
        numToString times ++ " for " ++ wallet.address ++ " ...")],
      cursor := w.cursor } cur c1 hcur
  obtain ⟨⟨b, hb⟩, hsub, hrd⟩ := key
  simp only [submitted_append, submitted, reads_append, reads, List.append_nil] at hsub hrd
  simp only [withdrawIteration, logger, World.emit]
  split
  · rename_i e w2 heq
    exact absurd ((congrArg Prod.fst heq).symm.trans hb) (by simp)
  · rename_i b2 w2 heq
    have hsub2 : submitted w2.trace = submitted w.trace ++
        (if (cur : Int) < amountWei
          then [Call.approve ⟨ADDR.EXETH, wallet.address⟩ ADDR.WITHDRAW amountWei] else []) :=
      (congrArg (fun r => submitted r.2.trace) heq).symm.trans hsub
    have hrd2 : reads w2.trace = reads w.trace ++
        [.allowance ⟨ADDR.EXETH, wallet.address⟩ wallet.address ADDR.WITHDRAW] :=
      (congrArg (fun r => reads r.2.trace) heq).symm.trans hrd
    obtain ⟨h, hh⟩ := hrel.1 (.withdraw ⟨ADDR.WITHDRAW, wallet.address⟩ amountWei ADDR.WETH)
      w2.chain
    rcases hs : E.submit (.withdraw ⟨ADDR.WITHDRAW, wallet.address⟩ amountWei ADDR.WETH)
      w2.chain with ⟨r, c3⟩
    rw [hs] at hh
    simp only at hh
    subst hh
    obtain ⟨rc, hrc⟩ := hrel.2.1
      ⟨.withdraw ⟨ADDR.WITHDRAW, wallet.address⟩ amountWei ADDR.WETH, h⟩ c3
    rcases hw : E.wait ⟨.withdraw ⟨ADDR.WITHDRAW, wallet.address⟩ amountWei ADDR.WETH, h⟩ c3
      with ⟨r2, c4⟩
    rw [hw] at hrc
    simp only at hrc
    subst hrc
    simp [doSubmit, doWait, World.emit, hs, hw, submitted_append, submitted, hsub2,
      reads_append, reads, hrd2]

/-- On a reliable chain the allowance read of an iteration answers. -/
theorem withdrawIteration_facts {σ : Type} (E : Chain σ) (L : Lib) (hrel : E.Reliable)
    (wallet : Wallet) (amountExEth : String) (times : JsNum) (amountWei : Int) (i : Nat)
    (w : World σ) :
    (withdrawIteration E L wallet amountExEth times amountWei i w).1 = .ok () ∧
    (submitted (withdrawIteration E L wallet amountExEth times amountWei i w).2.trace).count
        (.withdraw ⟨ADDR.WITHDRAW, wallet.address⟩ amountWei ADDR.WETH)
      = (submitted w.trace).count
        (.withdraw ⟨ADDR.WITHDRAW, wallet.address⟩ amountWei ADDR.WETH) + 1 ∧
    reads (withdrawIteration E L wallet amountExEth times amountWei i w).2.trace
      = reads w.trace ++
        [.allowance ⟨ADDR.EXETH, wallet.address⟩ wallet.address ADDR.WITHDRAW] := by
  obtain ⟨cur, hc⟩ := hrel.2.2.2 ⟨ADDR.EXETH, wallet.address⟩ wallet.address ADDR.WITHDRAW
    w.chain
  rcases hcur : E.allowance ⟨ADDR.EXETH, wallet.address⟩ wallet.address ADDR.WITHDRAW w.chain
    with ⟨r, c1⟩
  rw [hcur] at hc
  simp only at hc
  subst hc
  obtain ⟨h1, h2, h3⟩ := withdrawIteration_reliable E L hrel wallet amountExEth times amountWei
    i w cur c1 hcur
  refine ⟨h1, ?_, h3⟩
  rw [h2]
  split <;> simp [List.count_append, List.count_cons]

theorem withdraw_foldl_count {σ : Type} (E : Chain σ) (L : Lib) (hrel : E.Reliable)
    (wallet : Wallet) (amountExEth : String) (times : JsNum) (amountWei : Int)
    (xs : List Nat) (w : World σ) :
    (submitted (xs.foldl
        (fun w i => (withdrawIteration E L wallet amountExEth times amountWei i w).2)
        w).trace).count
        (.withdraw ⟨ADDR.WITHDRAW, wallet.address⟩ amountWei ADDR.WETH)
      = (submitted w.trace).count
        (.withdraw ⟨ADDR.WITHDRAW, wallet.address⟩ amountWei ADDR.WETH) + xs.length := by
  induction xs generalizing w with
  | nil => simp
  | cons x xs ih =>
    rw [List.foldl_cons, ih,
      (withdrawIteration_facts E L hrel wallet amountExEth times amountWei x w).2.1]
    simp only [List.length_cons]
    omega

theorem withdraw_foldl_reads {σ : Type} (E : Chain σ) (L : Lib) (hrel : E.Reliable)
    (wallet : Wallet) (amountExEth : String) (times : JsNum) (amountWei : Int)
    (xs : List Nat) (w : World σ) :
    reads (xs.foldl
        (fun w i => (withdrawIteration E L wallet amountExEth times amountWei i w).2) w).trace
      = reads w.trace ++ List.replicate xs.length
        (.allowance ⟨ADDR.EXETH, wallet.address⟩ wallet.address ADDR.WITHDRAW) := by
  induction xs generalizing w with
  | nil => simp
  | cons x xs ih =>
    rw [List.foldl_cons, ih,
      (withdrawIteration_facts E L hrel wallet amountExEth times amountWei x w).2.2]
    simp [List.replicate_succ]

/-- C5: on a chain where no call throws, `doWithdraw` runs the iterations
`1..times` in order and returns; each iteration is `ensureAllowance` for
(exETH, wallet, withdraw contract, amount) followed by exactly one
`withdraw(amount, WETH)`; `times` withdrawals are submitted in all, and the only
reads are `decimals` and the allowance of each iteration, never a balance. -/
theorem doWithdraw_iterations {σ : Type} (E : Chain σ) (L : Lib) (wallet : Wallet)
    (amountExEth : String) (times : Int) (amountWei : Int) (w : World σ)
    (hrel : E.Reliable)
    (hparse : L.parseUnits amountExEth
      (match (E.decimals ⟨ADDR.EXETH, wallet.address⟩ w.chain).1 with
        | .ok d => d
        | .error _ => 18) = .ok amountWei) :
    doWithdraw E L wallet amountExEth (.int times) w = (.ok (),
      (List.range' 1 times.toNat).foldl
        (fun w i => (withdrawIteration E L wallet amountExEth (.int times) amountWei i w).2)
        (doRead (.decimals ⟨ADDR.EXETH, wallet.address⟩)
          (E.decimals ⟨ADDR.EXETH, wallet.address⟩) w).2) ∧
    (∀ (i : Nat) (w1 : World σ) (cur : Nat) (c1 : σ),
      E.allowance ⟨ADDR.EXETH, wallet.address⟩ wallet.address ADDR.WITHDRAW w1.chain
        = (.ok cur, c1) →
      (withdrawIteration E L wallet amountExEth (.int times) amountWei i w1).1 = .ok () ∧
      submitted (withdrawIteration E L wallet amountExEth (.int times) amountWei i w1).2.trace
        = submitted w1.trace ++
          (if (cur : Int) < amountWei
            then [Call.approve ⟨ADDR.EXETH, wallet.address⟩ ADDR.WITHDRAW amountWei]
            else []) ++
          [Call.withdraw ⟨ADDR.WITHDRAW, wallet.address⟩ amountWei ADDR.WETH]) ∧
    (submitted (doWithdraw E L wallet amountExEth (.int times) w).2.trace).count
        (.withdraw ⟨ADDR.WITHDRAW, wallet.address⟩ amountWei ADDR.WETH)
      = (submitted w.trace).count
        (.withdraw ⟨ADDR.WITHDRAW, wallet.address⟩ amountWei ADDR.WETH) + times.toNat ∧
    reads (doWithdraw E L wallet amountExEth (.int times) w).2.trace
      = reads w.trace ++ Query.decimals ⟨ADDR.EXETH, wallet.address⟩ ::
        List.replicate times.toNat
          (.allowance ⟨ADDR.EXETH, wallet.address⟩ wallet.address ADDR.WITHDRAW) := by
  have heq : doWithdraw E L wallet amountExEth (.int times) w = (.ok (),
      (List.range' 1 times.toNat).foldl
        (fun w i => (withdrawIteration E L wallet amountExEth (.int times) amountWei i w).2)
        (doRead (.decimals ⟨ADDR.EXETH, wallet.address⟩)
          (E.decimals ⟨ADDR.EXETH, wallet.address⟩) w).2) := by
    simp only [doWithdraw, doRead, hparse, loopFrom1]
    exact forEach_of_ok _ _ _
      (fun i _ w => (withdrawIteration_facts E L hrel wallet amountExEth _ amountWei i w).1)
  refine ⟨heq, ?_, ?_, ?_⟩
  · intro i w1 cur c1 hcur
    obtain ⟨h1, h2, -⟩ := withdrawIteration_reliable E L hrel wallet amountExEth (.int times)
      amountWei i w1 cur c1 hcur
    exact ⟨h1, h2⟩
  · rw [heq]
    simp only
    rw [withdraw_foldl_count E L hrel]
    simp [doRead, World.emit, submitted_append, submitted]
  · rw [heq]
    simp only
    rw [withdraw_foldl_reads E L hrel]
    simp [doRead, World.emit, reads_append, reads]

theorem doWithdraw_iterations_witness :
    (submitted (doWithdraw (simChain []) simLib alice "10" (.int 3) (simWorld 0 0)).2.trace).count
        (.withdraw ⟨ADDR.WITHDRAW, alice.address⟩ 10 ADDR.WETH) = 3 :=
  (doWithdraw_iterations (simChain []) simLib alice "10" 3 10 (simWorld 0 0)
    simChain_reliable rfl).2.2.1

/-! ## The run-once deposit pass -/

/-- When `ensureAllowance` throws, the call that threw is the last thing it did. -/
theorem ensureAllowance_error_last {σ : Type} (E : Chain σ) (L : Lib) (tokenCtr : Contract)
    (ownerAddr spender : Address) (amount : Int) (w : World σ) (e : JsError)
    (h : (ensureAllowance E L tokenCtr ownerAddr spender amount w).1 = .error e) :
    ∃ ev, (ensureAllowance E L tokenCtr ownerAddr spender amount w).2.trace.getLast? = some ev ∧
      ev.isCall = true := by
  rcases hr : E.allowance tokenCtr ownerAddr spender w.chain with ⟨r, c1⟩
  cases r with
  | error e1 =>
    exact ⟨.read (.allowance tokenCtr ownerAddr spender), by
      simp [ensureAllowance, doRead, hr, World.emit], rfl⟩
  | ok current =>
    by_cases hle : amount ≤ current
    · simp [ensureAllowance, doRead, hr, toBigInt, hle] at h
    · rcases hs : E.submit (.approve tokenCtr spender amount) c1 with ⟨r1, c2⟩
      cases r1 with
      | error e1 =>
        exact ⟨.submit (.approve tokenCtr spender amount), by
          simp [ensureAllowance, doRead, hr, toBigInt, hle, World.emit, doSubmit, logger, hs],
          rfl⟩
      | ok hash =>
        rcases hw : E.wait ⟨.approve tokenCtr spender amount, hash⟩ c2 with ⟨r2, c3⟩
        cases r2 with
        | error e1 =>
          exact ⟨.wait ⟨.approve tokenCtr spender amount, hash⟩, by
            simp [ensureAllowance, doRead, hr, toBigInt, hle, World.emit, doSubmit, logger, hs,
              doWait, hw], rfl⟩
        | ok rc =>
          simp [ensureAllowance, doRead, hr, toBigInt, hle, World.emit, doSubmit, logger, hs,
            doWait, hw] at h

/-- When an iteration of `doDeposit` throws, the call that threw is the last thing
it did. -/
theorem depositIteration_error_last {σ : Type} (E : Chain σ) (L : Lib) (wallet : Wallet)
    (amountWeth : String) (times : JsNum) (amountWei : Int) (i : Nat) (w : World σ)
    (e : JsError)
    (h : (depositIteration E L wallet amountWeth times amountWei i w).1 = .error e) :
    ∃ ev, (depositIteration E L wallet amountWeth times amountWei i w).2.trace.getLast?
      = some ev ∧ ev.isCall = true := by
  rcases hbal : E.balanceOf ⟨ADDR.WETH, wallet.address⟩ wallet.address w.chain with ⟨r, c1⟩
  cases r with
  | error e1 =>
    exact ⟨.read (.balanceOf ⟨ADDR.WETH, wallet.address⟩ wallet.address), by
      simp [depositIteration, doRead, logger, World.emit, hbal], rfl⟩
  | ok bal =>
    by_cases hlt : (bal : Int) < amountWei
    · simp [depositIteration, doRead, logger, World.emit, hbal, toBigInt, hlt] at h
    · revert h
      simp only [depositIteration, doRead, logger, World.emit, hbal, toBigInt, hlt, if_false]
      split
      · rename_i e1 w2 heq
        intro _
        have hl := ensureAllowance_error_last E L _ _ _ _ _ e1 (congrArg Prod.fst heq)
        rw [heq] at hl
        exact hl
      · rename_i b w2 heq
        rcases hs : E.submit (.deposit ⟨ADDR.DEPOSIT, wallet.address⟩ ADDR.WETH amountWei)
          w2.chain with ⟨r1, c2⟩
        cases r1 with
        | error e1 =>
          intro _
          exact ⟨.submit (.deposit ⟨ADDR.DEPOSIT, wallet.address⟩ ADDR.WETH amountWei), by
            simp [doSubmit, World.emit, hs], rfl⟩
        | ok hash =>
          rcases hw : E.wait ⟨.deposit ⟨ADDR.DEPOSIT, wallet.address⟩ ADDR.WETH amountWei, hash⟩
            c2 with ⟨r2, c3⟩
          cases r2 with
          | error e1 =>
            intro _
            exact ⟨.wait ⟨.deposit ⟨ADDR.DEPOSIT, wallet.address⟩ ADDR.WETH amountWei, hash⟩, by
              simp [doSubmit, doWait, World.emit, hs, hw], rfl⟩
          | ok rc =>
            intro h
            simp [doSubmit, doWait, World.emit, hs, hw] at h

/-- A throw in one wallet's iteration ends the whole deposit pass there. -/
theorem depositPass_stops {σ : Type} (E : Chain σ) (L : Lib) (ws1 : List Wallet) (wk : Wallet)
    (ws2 : List Wallet) (amountStr : String) (times : JsNum) (amountWei : Int)
    (is1 : List Nat) (i : Nat) (is2 : List Nat) (w wa wb wc : World σ) (e : JsError)
    (hpre : depositPass E L ws1 amountStr times w = (.ok (), wa))
    (hparse : L.parseUnits amountStr 18 = .ok amountWei)
    (hits : loopFrom1 times = is1 ++ i :: is2)
    (hit1 : forEach (depositIteration E L wk amountStr times amountWei) is1
      (logger .info ("--- Deposit for " ++ wk.address ++ " ---") (logger .console "" wa))
      = (.ok (), wb))
    (hfail : depositIteration E L wk amountStr times amountWei i wb = (.error e, wc)) :
    depositPass E L (ws1 ++ wk :: ws2) amountStr times w = (.error e, wc) := by
  apply forEach_stops _ ws1 wk ws2 w wa wc e hpre
  simp only [doDeposit, hparse, hits]
  exact forEach_stops _ is1 i is2 _ wb wc e hit1 hfail

/-- C6: in a pass of the menu loop where Deposit is chosen and run once, if the
deposit pass went well through the wallets `ws1` and through the iterations `is1`
of the wallet `wk`, and the next iteration throws (an approval or a deposit
fails), then the call that threw is the last effect of the pass, no transaction is
submitted afterwards (none for the iterations `is2`, none for the wallets `ws2`),
the error is shown by the `catch` of the loop, and the loop goes on to its next
pass instead of ending the process. -/
theorem runOnce_deposit_failure {σ : Type} (E : Chain σ) (L : Lib) (stdin : Nat → String)
    (now : String) (ws1 : List Wallet) (wk : Wallet) (ws2 : List Wallet)
    (w w1 wa wb wc : World σ) (a : DepositAnswers σ) (amountWei : Int)
    (is1 : List Nat) (i : Nat) (is2 : List Nat) (e : JsError)
    (hhead : showHeaderBalances E L (ws1 ++ wk :: ws2) w = (.ok (), w1))
    (hchoice : (menuPrompt stdin w1).1 = "1")
    (hanswers : promptDeposit stdin (menuPrompt stdin w1).2 = a)
    (hsched : upperIsS a.scheduleChoice = false)
    (hpre : depositPass E L ws1 a.amountStr a.times a.world = (.ok (), wa))
    (hparse : L.parseUnits a.amountStr 18 = .ok amountWei)
    (hits : loopFrom1 a.times = is1 ++ i :: is2)
    (hit1 : forEach (depositIteration E L wk a.amountStr a.times amountWei) is1
      (logger .info ("--- Deposit for " ++ wk.address ++ " ---") (logger .console "" wa))
      = (.ok (), wb))
    (hfail : depositIteration E L wk a.amountStr a.times amountWei i wb = (.error e, wc)) :
    menuIteration E L stdin now (ws1 ++ wk :: ws2) w = (.ok .next,
      logger .console "" (logger .banner ""
        (pressEnter stdin (logger .error (errorMessage e) wc)))) ∧
    submitted (logger .console "" (logger .banner ""
        (pressEnter stdin (logger .error (errorMessage e) wc)))).trace = submitted wc.trace ∧
    (∃ ev, wc.trace.getLast? = some ev ∧ ev.isCall = true) ∧
    ∀ passes : Nat,
      mainLoop E L stdin now (ws1 ++ wk :: ws2) (passes + 1) w =
        mainLoop E L stdin now (ws1 ++ wk :: ws2) passes
          (logger .console "" (logger .banner ""
            (pressEnter stdin (logger .error (errorMessage e) wc)))) := by
  have hpass := depositPass_stops E L ws1 wk ws2 a.amountStr a.times amountWei is1 i is2
    a.world wa wb wc e hpre hparse hits hit1 hfail
  have h4 : ¬ ((menuPrompt stdin w1).1 = "4") := by
    rw [hchoice]
    decide
  have hiter : menuIteration E L stdin now (ws1 ++ wk :: ws2) w = (.ok .next,
      logger .console "" (logger .banner ""
        (pressEnter stdin (logger .error (errorMessage e) wc)))) := by
    have h14 : ¬ ("1" = "4") := by decide
    simp only [menuIteration, hhead, h4, if_false, menuBody, hchoice, if_true, hanswers, hsched,
      Bool.false_eq_true, hpass, h14]
  refine ⟨hiter, ?_, ?_, ?_⟩
  · simp [logger, pressEnter, ask, World.emit, submitted_append, submitted]
  · have hl := depositIteration_error_last E L wk a.amountStr a.times amountWei i wb e
      (congrArg Prod.fst hfail)
    rw [hfail] at hl
    exact hl
  · intro passes
    simp only [mainLoop, hiter]

theorem runOnce_deposit_failure_witness :
    (menuIteration (simChain [.deposit ⟨ADDR.DEPOSIT, alice.address⟩ ADDR.WETH 10]) simLib
      depositAnswers "now" [alice, bob] (simWorld 0 25)).1 = .ok .next :=
  congrArg Prod.fst
    (runOnce_deposit_failure (simChain [.deposit ⟨ADDR.DEPOSIT, alice.address⟩ ADDR.WETH 10])
      simLib depositAnswers "now" [] alice [bob] (simWorld 0 25) _ _ _ _ _ 10 [] 1 [2]
      revertError rfl (by decide) rfl (by decide) rfl rfl (by decide) rfl rfl).1

/-! ## Scheduled runs -/

/-- C7 fails on the code: a scheduled run in which a deposit reverts ends with
that error thrown out of `runDepositTask`; no handler inside it catches or logs it,
and the wallets after the failing one are not served. -/
theorem runDepositTask_failure_uncaught :
    (runDepositTask (simChain [.deposit ⟨ADDR.DEPOSIT, alice.address⟩ ADDR.WETH 10]) simLib
      "2026-01-01, 00:00:00" [alice, bob] "10" (.int 1) (simWorld 0 25)).1
      = .error revertError ∧
    logged .error (runDepositTask
      (simChain [.deposit ⟨ADDR.DEPOSIT, alice.address⟩ ADDR.WETH 10]) simLib
      "2026-01-01, 00:00:00" [alice, bob] "10" (.int 1) (simWorld 0 25)).2.trace = [] ∧
    logged .warn (runDepositTask
      (simChain [.deposit ⟨ADDR.DEPOSIT, alice.address⟩ ADDR.WETH 10]) simLib
      "2026-01-01, 00:00:00" [alice, bob] "10" (.int 1) (simWorld 0 25)).2.trace = [] ∧
    submitted (runDepositTask
      (simChain [.deposit ⟨ADDR.DEPOSIT, alice.address⟩ ADDR.WETH 10]) simLib
      "2026-01-01, 00:00:00" [alice, bob] "10" (.int 1) (simWorld 0 25)).2.trace
      = [.approve ⟨ADDR.WETH, alice.address⟩ ADDR.DEPOSIT 10,
         .deposit ⟨ADDR.DEPOSIT, alice.address⟩ ADDR.WETH 10] :=
  ⟨rfl, by decide, by decide, by decide⟩

/-! ## Repeat counts -/

/-- An answer in which an integer of magnitude up to `2 ^ 53` is read gives that
integer as a Number. -/
theorem parseInt_of_mathInt (s : String) (n : Int) (h : mathInt s.data = some n)
    (hsafe : n.natAbs ≤ 2 ^ 53) : parseInt s = .int n := by
  simp only [parseInt, parseIntChars, h]
  exact numberOfInt_exact n (toDouble_safe _ hsafe)

theorem mathInt_ne_empty (s : String) (n : Int) (h : mathInt s.data = some n) : s ≠ "" := by
  intro hs
  subst hs
  have h0 : mathInt "".data = none := by decide
  rw [h0] at h
  cases h

/-- C10 (amended): an answer to a repeat-count prompt in which `parseInt` reads
the integer `n`, of magnitude at most `2 ^ 53`, gives the count `max(1, n)`, and the
empty answer gives 1; this is the count passed on by the deposit, withdraw and claim
branches of the menu; for `n ≤ 0` the loops of `doDeposit`/`doWithdraw` and of
`doClaim` run one iteration. -/
theorem repeatCount_spec (s : String) (n : Int) (hparse : mathInt s.data = some n)
    (hsafe : n.natAbs ≤ 2 ^ 53) :
    repeatCount s = .int (max 1 n) ∧
    repeatCount "" = .int 1 ∧
    (1 : Int) ≤ max 1 n ∧
    (n ≤ 0 → loopFrom1 (repeatCount s) = [1] ∧ loopFrom0 (claimCount (repeatCount s)) = [0]) ∧
    (∀ (σ : Type) (stdin : Nat → String) (w : World σ),
      jsTrim (stdin (w.cursor + 1)) = s → (promptDeposit stdin w).times = .int (max 1 n)) ∧
    (∀ (σ : Type) (E : Chain σ) (L : Lib) (stdin : Nat → String) (now : String)
      (wallets : List Wallet) (w : World σ),
      jsTrim (stdin (w.cursor + 1)) = s →
      menuBody E L stdin now wallets "2" w =
        match withdrawPass E L wallets (jsTrim (stdin w.cursor)) (.int (max 1 n))
          (ask stdin "How many transactions per wallet?: "
            (ask stdin "Amount per tx (in exETH), e.g., 0.001: " w).2).2 with
        | (.error e, w1) => (.error e, w1)
        | (.ok _, w1) => (.ok .next, pressEnter stdin w1)) ∧
    (∀ (σ : Type) (E : Chain σ) (L : Lib) (stdin : Nat → String) (now : String)
      (wallets : List Wallet) (w : World σ),
      jsTrim (stdin w.cursor) = s →
      menuBody E L stdin now wallets "3" w =
        match claimPass E L wallets (.int (max 1 n))
          (ask stdin "How many claims to attempt per wallet?: " w).2 with
        | (.error e, w1) => (.error e, w1)
        | (.ok _, w1) => (.ok .next, pressEnter stdin w1)) := by
  have hne := mathInt_ne_empty s n hparse
  have hrc : repeatCount s = .int (max 1 n) := by
    simp only [repeatCount, hne, if_false, parseInt_of_mathInt s n hparse hsafe, mathMax1]
  refine ⟨hrc, by decide, le_max_left 1 n, ?_, ?_, ?_, ?_⟩
  · intro hn
    have h1 : max 1 n = 1 := max_eq_left (by omega)
    rw [hrc, h1]
    exact ⟨by decide, by decide⟩
  · intro σ stdin w hs
    simp only [promptDeposit, ask, World.emit, hs, hrc]
  · intro σ E L stdin now wallets w hs
    have h21 : ¬ ("2" = "1") := by decide
    simp only [menuBody, h21, if_false, if_true, ask, World.emit, hs, hrc]
  · intro σ E L stdin now wallets w hs
    have h31 : ¬ ("3" = "1") := by decide
    have h32 : ¬ ("3" = "2") := by decide
    simp only [menuBody, h31, h32, if_false, if_true, ask, World.emit, hs, hrc]

theorem repeatCount_spec_witness :
    (loopFrom1 (repeatCount "-3") = [1] ∧ loopFrom0 (claimCount (repeatCount "-3")) = [0]) ∧
    repeatCount "7 times" = .int (max 1 7) :=
  ⟨(repeatCount_spec "-3" (-3) (by decide) (by decide)).2.2.2.1 (by decide),
   (repeatCount_spec "7 times" 7 (by decide) (by decide)).1⟩

/-- C10 as stated fails: in the answer `9007199254740993` the integer read is
`2 ^ 53 + 1`, and the count handed over is `2 ^ 53`, not `max(1, 2 ^ 53 + 1)`. -/
theorem repeatCount_rounds :
    mathInt "9007199254740993".data = some 9007199254740993 ∧
    repeatCount "9007199254740993" = .int 9007199254740992 ∧
    repeatCount "9007199254740993" ≠ .int (max 1 9007199254740993) := by
  decide

/-! ## Private keys from the environment: theorems -/

theorem dropWhile_of_all_false {α : Type} (p : α → Bool) (l : List α)
    (h : ∀ a ∈ l, p a = false) : l.dropWhile p = l := by
  cases l with
  | nil => rfl
  | cons a t =>
    have := h a (List.mem_cons_self _ _)
    simp [List.dropWhile, this]

theorem trimChars_digits (ds : List Char) (hall : ∀ c ∈ ds, isDecDigit c = true) :
    trimChars ds = ds := by
  have h1 : ∀ c ∈ ds, isJsSpace c = false := fun c hc => isDecDigit_not_space c (hall c hc)
  have h2 : ∀ c ∈ ds.reverse, isJsSpace c = false := fun c hc => h1 c (List.mem_reverse.mp hc)
  simp only [trimChars, dropWhile_of_all_false _ _ h1, dropWhile_of_all_false _ _ h2,
    List.reverse_reverse]

theorem hasRadixMark_digits (ds : List Char) (hall : ∀ c ∈ ds, isDecDigit c = true)
    (a b : Char) (ha : isDecDigit a = false) (hb : isDecDigit b = false) :
    hasRadixMark ds a b = false := by
  cases ds with
  | nil => rfl
  | cons c t =>
    cases t with
    | nil => simp [hasRadixMark]
    | cons d t2 =>
      have hd : isDecDigit d = true := hall d (by simp)
      have hda : d ≠ a := by
        intro h
        rw [h, ha] at hd
        cases hd
      have hdb : d ≠ b := by
        intro h
        rw [h, hb] at hd
        cases hd
      simp [hasRadixMark, hda, hdb]

/-- A nonempty run of decimal digits is the decimal literal of its value. -/
theorem signedDecimal_digits (ds : List Char) (hne : ds ≠ [])
    (hall : ∀ c ∈ ds, isDecDigit c = true) :
    signedDecimal ds = doubleOfNat (digitsValue ds) := by
  cases ds with
  | nil => exact absurd rfl hne
  | cons c t =>
    have hc := hall c (List.mem_cons_self _ _)
    have hsg := isDecDigit_ne_sign c hc
    have hinf : c :: t ≠ "Infinity".data := by
      intro h
      have hI : 'I' ∈ c :: t := by
        rw [h]
        decide
      have := hall 'I' hI
      revert this
      decide
    have htw : (c :: t).takeWhile isDecDigit = c :: t :=
      List.takeWhile_eq_self_iff.mpr hall
    have hdw : (c :: t).dropWhile isDecDigit = [] :=
      List.dropWhile_eq_nil_iff.mpr hall
    simp only [signedDecimal, List.head?_cons, Option.some.injEq, hsg.1, hsg.2, if_false,
      unsignedDecimal, hinf, htw, hdw, List.head?_nil, List.append_nil, exponentPart,
      List.length_nil, Nat.cast_zero, sub_zero, le_refl, if_true, Int.toNat_zero, pow_zero,
      mul_one]
    simp

theorem jsNumber_digits (ds : List Char) (hne : ds ≠ [])
    (hall : ∀ c ∈ ds, isDecDigit c = true) :
    jsNumber (String.mk ds) = doubleOfNat (digitsValue ds) := by
  simp only [jsNumber, trimChars_digits ds hall, hne, if_false,
    hasRadixMark_digits ds hall 'x' 'X' (by decide) (by decide),
    hasRadixMark_digits ds hall 'o' 'O' (by decide) (by decide),
    hasRadixMark_digits ds hall 'b' 'B' (by decide) (by decide), Bool.false_eq_true,
    signedDecimal_digits ds hne hall]

/-- The sort key of an entry name numbered at most `2 ^ 53` is its number, in units
of `2 ^ -1074`. -/
theorem suffixNumber_of_keyIndex (k : String) (m : Nat) (h : keyIndex k = some m)
    (hm : m ≤ 2 ^ 53) : suffixNumber k = ((m <<< 1074 : Nat) : Int) := by
  simp only [keyIndex] at h
  split at h
  · rename_i hc
    obtain ⟨-, hne, hall⟩ := hc
    simp only [Option.some.injEq] at h
    have hd := jsNumber_digits _ hne (fun c hc => List.all_eq_true.mp hall c hc)
    rw [h] at hd
    simp only [suffixNumber, keySuffix, hd, doubleOfNat, toDouble_safe m hm, orZeroKey,
      Bool.false_eq_true, if_false]
  · cases h

theorem map_snd_filter_pairs {α β : Type} (f : α → β) (p : β → Bool) (l : List α) :
    ((l.map (fun k => (k, f k))).filter (fun q => p q.2)).map Prod.snd
      = (l.map f).filter p := by
  induction l with
  | nil => rfl
  | cons x xs ih =>
    simp only [List.map_cons, List.filter_cons]
    split <;> simp [ih]

/-- The sorted entry names are in the order of the comparator. -/
theorem sortedKeyNames_sorted (env : List (String × String)) :
    (sortedKeyNames env).Pairwise (fun a b => suffixNumber a ≤ suffixNumber b) := by
  haveI : IsTotal String (fun a b => suffixNumber a ≤ suffixNumber b) :=
    ⟨fun a b => le_total _ _⟩
  haveI : IsTrans String (fun a b => suffixNumber a ≤ suffixNumber b) :=
    ⟨fun a b c hab hbc => le_trans hab hbc⟩
  exact List.sorted_insertionSort _ _

theorem mem_sortedKeyNames (env : List (String × String)) (k : String) :
    k ∈ sortedKeyNames env ↔ k ∈ env.map Prod.fst ∧ hasKeyTag k = true := by
  simp only [sortedKeyNames, List.mem_insertionSort, List.mem_filter]

/-- In an environment without repeated names, looking a name up gives its entry. -/
theorem lookup_of_mem (env : List (String × String)) (h : (env.map Prod.fst).Nodup)
    (p : String × String) (hp : p ∈ env) : env.lookup p.1 = some p.2 := by
  induction env with
  | nil => cases hp
  | cons q t ih =>
    obtain ⟨qk, qv⟩ := q
    simp only [List.map_cons, List.nodup_cons] at h
    rcases List.mem_cons.mp hp with rfl | hmem
    · simp [List.lookup]
    · have hne : p.1 ≠ qk := by
        intro heq
        exact h.1 (heq ▸ List.mem_map_of_mem Prod.fst hmem)
      have hbeq : (p.1 == qk) = false := by simpa using hne
      simp only [List.lookup, hbeq]
      exact ih h.2 hmem

/-- The pairs of name and value over the tagged names are the tagged entries. -/
theorem tagged_pairs (env : List (String × String)) (h : (env.map Prod.fst).Nodup) :
    ((env.map Prod.fst).filter hasKeyTag).map (fun k => (k, envValue env k))
      = env.filter (fun p => hasKeyTag p.1) := by
  rw [List.filter_map, List.map_map]
  have hid : ∀ p ∈ env.filter (hasKeyTag ∘ Prod.fst),
      ((fun k => (k, envValue env k)) ∘ Prod.fst) p = id p := by
    intro p hp
    have hmem : p ∈ env := (List.mem_filter.mp hp).1
    simp only [Function.comp, envValue, lookup_of_mem env h p hmem, Option.getD_some, id]
  rw [List.map_congr_left hid, List.map_id]
  rfl

/-- C9 (amended): in an environment (each name once) whose numbered entry names
carry numbers of at most `2 ^ 53`, `loadPrivateKeysFromEnv` returns the values of
the entries named `PRIVATE_KEY_...` that have a nonempty value, each once, in an
order in which an entry numbered `m` comes before an entry numbered `n` only if
`m ≤ n`; with no such entry the process ends with status 1. -/
theorem loadPrivateKeysFromEnv_ascending (env : List (String × String))
    (hnames : (env.map Prod.fst).Nodup)
    (hsafe : ∀ k ∈ env.map Prod.fst, (keyIndex k).getD 0 ≤ 2 ^ 53) :
    ∃ entries : List (String × String),
      entries.Perm (env.filter (fun p => hasKeyTag p.1 && decide (p.2 ≠ ""))) ∧
      entries.Pairwise (fun a b => ∀ m n : Nat,
        keyIndex a.1 = some m → keyIndex b.1 = some n → m ≤ n) ∧
      loadPrivateKeysFromEnv env =
        if entries.length = 0 then .error ⟨"No PRIVATE_KEY_* found in .env", 1⟩
        else .ok (entries.map Prod.snd) := by
  refine ⟨((sortedKeyNames env).map (fun k => (k, envValue env k))).filter
    (fun q => decide (q.2 ≠ "")), ?_, ?_, ?_⟩
  · have hperm : (sortedKeyNames env).Perm ((env.map Prod.fst).filter hasKeyTag) :=
      List.perm_insertionSort _ _
    have h2 := ((hperm.map (fun k => (k, envValue env k))).filter
      (fun q => decide (q.2 ≠ "")))
    rw [tagged_pairs env hnames, List.filter_filter] at h2
    refine h2.trans (List.Perm.of_eq ?_)
    apply List.filter_congr
    intro p _
    rw [Bool.and_comm]
  · apply List.Pairwise.filter
    rw [List.pairwise_map]
    refine (sortedKeyNames_sorted env).imp_of_mem ?_
    intro a b ha hb hab m n hm hn
    have hma := hsafe a ((mem_sortedKeyNames env a).mp ha).1
    have hnb := hsafe b ((mem_sortedKeyNames env b).mp hb).1
    simp only at hm hn
    rw [hm, Option.getD_some] at hma
    rw [hn, Option.getD_some] at hnb
    rw [suffixNumber_of_keyIndex a m hm hma, suffixNumber_of_keyIndex b n hn hnb,
      Int.ofNat_le, Nat.shiftLeft_eq, Nat.shiftLeft_eq] at hab
    exact Nat.le_of_mul_le_mul_right hab (by positivity)
  · have hv := map_snd_filter_pairs (envValue env) (fun v => decide (v ≠ ""))
      (sortedKeyNames env)
    simp only [loadPrivateKeysFromEnv]
    rw [hv, ← hv, List.length_map]

theorem loadPrivateKeysFromEnv_ascending_witness :
    (∃ entries : List (String × String),
      entries.Perm (simEnv.filter (fun p => hasKeyTag p.1 && decide (p.2 ≠ ""))) ∧
      entries.Pairwise (fun a b => ∀ m n : Nat,
        keyIndex a.1 = some m → keyIndex b.1 = some n → m ≤ n) ∧
      loadPrivateKeysFromEnv simEnv =
        if entries.length = 0 then .error ⟨"No PRIVATE_KEY_* found in .env", 1⟩
        else .ok (entries.map Prod.snd)) ∧
    loadPrivateKeysFromEnv simEnv = .ok ["0xkx", "0xk1", "0xk2", "0xk10"] :=
  ⟨loadPrivateKeysFromEnv_ascending simEnv (by decide) (by decide), rfl⟩

/-- C9 as stated fails: the entry numbered `2 ^ 53 + 1` comes first in the
environment and stays first in the returned list, before the entry numbered
`2 ^ 53`: both suffixes are the same Number. -/
theorem loadPrivateKeysFromEnv_rounded_suffix :
    loadPrivateKeysFromEnv [("PRIVATE_KEY_9007199254740993", "0xa"),
      ("PRIVATE_KEY_9007199254740992", "0xb")] = .ok ["0xa", "0xb"] ∧
    keyIndex "PRIVATE_KEY_9007199254740993" = some 9007199254740993 ∧
    keyIndex "PRIVATE_KEY_9007199254740992" = some 9007199254740992 ∧
    ¬ (9007199254740993 ≤ 9007199254740992) :=
  ⟨rfl, by decide, by decide, by decide⟩

/-! ## Unit/amount conversion: theorems -/

theorem digitsValue_nil : digitsValue [] = 0 := rfl

theorem digitsValue_zeros_append (m : Nat) (xs : List Char) :
    digitsValue (List.replicate m '0' ++ xs) = digitsValue xs := by
  induction m with
  | zero => simp
  | succ m ih =>
    rw [List.replicate_succ, List.cons_append]
    simpa [digitsValue] using ih

theorem digitsValue_append_zeros (xs : List Char) (k : Nat) :
    digitsValue (xs ++ List.replicate k '0') = digitsValue xs * 10 ^ k := by
  induction k with
  | zero => simp
  | succ k ih =>
    rw [List.replicate_succ', ← List.append_assoc, digitsValue_append_single, ih, pow_succ]
    have : '0'.toNat - 48 = 0 := by decide
    rw [this]
    ring

/-- A run of digits is its stripped form followed by zeros. -/
theorem stripZeros_append (cs : List Char) :
    cs = stripZeros cs ++ List.replicate (cs.length - (stripZeros cs).length) '0' := by
  have h := List.takeWhile_append_dropWhile (fun c => decide (c = '0')) cs.reverse
  have ht : ∀ c ∈ (cs.reverse.takeWhile (fun c => decide (c = '0'))), c = '0' := by
    intro c hc
    simpa using List.mem_takeWhile_imp hc
  have hrep : cs.reverse.takeWhile (fun c => decide (c = '0'))
      = List.replicate (cs.reverse.takeWhile (fun c => decide (c = '0'))).length '0' :=
    List.eq_replicate_iff.mpr ⟨rfl, ht⟩
  have hcs : cs = stripZeros cs ++ (cs.reverse.takeWhile (fun c => decide (c = '0'))).reverse := by
    have := congrArg List.reverse h
    simp only [List.reverse_append, List.reverse_reverse] at this
    exact this.symm
  have hlen : (cs.reverse.takeWhile (fun c => decide (c = '0'))).length
      = cs.length - (stripZeros cs).length := by
    have := congrArg List.length hcs
    simp only [List.length_append, List.length_reverse] at this
    omega
  rw [hrep, List.reverse_replicate, hlen] at hcs
  exact hcs

theorem stripZeros_all_digits (cs : List Char) (h : ∀ c ∈ cs, isDecDigit c = true) :
    ∀ c ∈ stripZeros cs, isDecDigit c = true := by
  intro c hc
  apply h
  have hm : c ∈ cs.reverse.dropWhile (fun c => decide (c = '0')) := by
    simpa [stripZeros] using hc
  have := (List.dropWhile_sublist _).subset hm
  simpa using this

theorem isDecDigit_ne_point (c : Char) (h : isDecDigit c = true) : c ≠ '.' := by
  simp only [isDecDigit, Bool.and_eq_true, decide_eq_true_eq] at h
  intro hc
  subst hc
  revert h
  decide

/-- Reading a string made of a whole part, a point and a fraction. -/
theorem toBaseUnits_pointed (ws fs : List Char) (d : Nat) (hw : ws ≠ [])
    (hwd : ∀ c ∈ ws, isDecDigit c = true) (hf : fs ≠ [])
    (hfd : ∀ c ∈ fs, isDecDigit c = true) (hlen : fs.length ≤ d) :
    toBaseUnits (String.mk (ws ++ '.' :: fs)) d
      = .ok (digitsValue ws * 10 ^ d + digitsValue fs * 10 ^ (d - fs.length)) := by
  have hp : ∀ c ∈ ws, (decide (c ≠ '.')) = true := by
    intro c hc
    simpa using isDecDigit_ne_point c (hwd c hc)
  have htake : (ws ++ '.' :: fs).takeWhile (fun c => decide (c ≠ '.')) = ws := by
    rw [List.takeWhile_append_of_pos hp, List.takeWhile_cons_of_neg (by simp)]
    simp
  have hdrop : (ws ++ '.' :: fs).dropWhile (fun c => decide (c ≠ '.')) = '.' :: fs := by
    rw [List.dropWhile_append_of_pos hp, List.dropWhile_cons_of_neg (by simp)]
  have hwall : ws.all isDecDigit = true := List.all_eq_true.mpr hwd
  have hfall : fs.all isDecDigit = true := List.all_eq_true.mpr hfd
  simp only [toBaseUnits, htake, hdrop, List.tail_cons, hw, hwall, hfall, hf, and_false,
    or_self, if_false, Bool.true_eq_false, not_lt.mpr hlen]

/-- Reading a string of digits only. -/
theorem toBaseUnits_whole (ws : List Char) (d : Nat) (hw : ws ≠ [])
    (hwd : ∀ c ∈ ws, isDecDigit c = true) :
    toBaseUnits (String.mk ws) d = .ok (digitsValue ws * 10 ^ d) := by
  have hp : ∀ c ∈ ws, (decide (c ≠ '.')) = true := by
    intro c hc
    simpa using isDecDigit_ne_point c (hwd c hc)
  have htake : ws.takeWhile (fun c => decide (c ≠ '.')) = ws :=
    List.takeWhile_eq_self_iff.mpr hp
  have hdrop : ws.dropWhile (fun c => decide (c ≠ '.')) = [] :=
    List.dropWhile_eq_nil_iff.mpr hp
  have hwall : ws.all isDecDigit = true := List.all_eq_true.mpr hwd
  simp only [toBaseUnits, htake, hdrop, List.tail_nil, hw, hwall, List.all_nil, ne_eq,
    not_true_eq_false, false_and, or_self, if_false, Bool.true_eq_false, List.length_nil,
    Nat.not_lt_zero, digitsValue_nil, zero_mul, add_zero]

/-- What `toDecimalString` writes reads back as the value it was given. -/
theorem toBaseUnits_toDecimalString (v d : Nat) :
    toBaseUnits (toDecimalString v d) d = .ok v := by
  by_cases hd : d = 0
  · subst hd
    simp only [toDecimalString, if_true]
    rw [toBaseUnits_whole _ _ (toDigits_ne_nil _) (toDigits_all_digits _), digitsValue_toDigits]
    simp
  · have hdpos : 0 < d := Nat.pos_of_ne_zero hd
    have hr : v % 10 ^ d < 10 ^ d := Nat.mod_lt _ (by positivity)
    have hrl := toDigits_length_le (v % 10 ^ d) d hr hdpos
    -- the fraction padded to `d` digits
    have hP : ∃ P : List Char, P = List.replicate (d - (Nat.toDigits 10 (v % 10 ^ d)).length) '0'
        ++ Nat.toDigits 10 (v % 10 ^ d) := ⟨_, rfl⟩
    obtain ⟨P, hPdef⟩ := hP
    have hPlen : P.length = d := by
      rw [hPdef, List.length_append, List.length_replicate]
      omega
    have hPval : digitsValue P = v % 10 ^ d := by
      rw [hPdef, digitsValue_zeros_append, digitsValue_toDigits]
    have hPdig : ∀ c ∈ P, isDecDigit c = true := by
      intro c hc
      rw [hPdef, List.mem_append] at hc
      rcases hc with hc | hc
      · rw [(List.mem_replicate.mp hc).2]
        decide
      · exact toDigits_all_digits _ c hc
    have hsplit := stripZeros_append P
    have hSlen : (stripZeros P).length ≤ d := by
      have := congrArg List.length hsplit
      simp only [List.length_append, List.length_replicate] at this
      omega
    have hSval : digitsValue (stripZeros P) * 10 ^ (d - (stripZeros P).length) = v % 10 ^ d := by
      rw [← hPval, ← digitsValue_append_zeros, ← hPlen, ← hsplit]
    simp only [toDecimalString, hd, if_false, ← hPdef]
    by_cases hS : stripZeros P = []
    · simp only [hS, if_true]
      rw [toBaseUnits_pointed _ _ d (toDigits_ne_nil _) (toDigits_all_digits _) (by simp)
        (by intro c hc; rw [List.mem_singleton.mp hc]; decide) (by simpa using hdpos),
        digitsValue_toDigits]
      rw [hS] at hSval
      have h0 : digitsValue ['0'] = 0 := by decide
      simp only [digitsValue_nil, zero_mul] at hSval
      rw [h0, zero_mul, add_zero]
      congr 1
      have := Nat.div_add_mod' v (10 ^ d)
      omega
    · simp only [hS, if_false]
      rw [toBaseUnits_pointed _ _ d (toDigits_ne_nil _) (toDigits_all_digits _) hS
        (stripZeros_all_digits P hPdig) hSlen, digitsValue_toDigits, hSval]
      congr 1
      exact Nat.div_add_mod' v (10 ^ d)

/-- C8 (amended): for every precision `d` and every amount string `A` that
`toBaseUnits` accepts, `toDecimalString(toBaseUnits(A, d), d)` is a spelling of the
same amount, since it converts to the same base units; and it is `A` itself whenever
`A` is a string that `toDecimalString` writes. -/
theorem roundTrip_amount (A : String) (d v : Nat) (h : toBaseUnits A d = .ok v) :
    toBaseUnits (toDecimalString v d) d = .ok v ∧
    ∀ u : Nat, A = toDecimalString u d → toDecimalString v d = A := by
  refine ⟨toBaseUnits_toDecimalString v d, ?_⟩
  intro u hu
  have h2 := toBaseUnits_toDecimalString u d
  rw [← hu, h] at h2
  have huv : v = u := by
    injection h2
  rw [huv, hu]

theorem roundTrip_amount_witness :
    toBaseUnits (toDecimalString 1500000000000000000 18) 18 = .ok 1500000000000000000 ∧
    toDecimalString 10000000000000000 18 = "0.01" :=
  ⟨(roundTrip_amount "1.50" 18 1500000000000000000 rfl).1,
   (roundTrip_amount "0.01" 18 10000000000000000 rfl).2 10000000000000000 (by decide)⟩

/-- C8 as stated fails: `1.50` has two fractional digits, at most the 18 of the
precision, and it converts to the same base units as `1.5`; the string written for
those base units is `1.5`, not `1.50`. -/
theorem roundTrip_trailing_zero :
    toBaseUnits "1.50" 18 = .ok 1500000000000000000 ∧
    toBaseUnits "1.5" 18 = .ok 1500000000000000000 ∧
    toDecimalString 1500000000000000000 18 = "1.5" ∧
    toDecimalString 1500000000000000000 18 ≠ "1.50" :=
  ⟨rfl, rfl, by decide, by decide⟩

end Lim
